import Mathlib

/-!
# AIC picker (aurem_clib.c): embedding and verification

The C function aicp works on IEEE 754 binary32 values (C float), calls the
binary64 function log of the C library, and stores binary32 results.

Floating-point model.  A finite number is kept as a sign and a magnitude
counted in units of 2^-1074, the least positive binary64 number.  Every finite
binary32 and binary64 number is an integer multiple of that unit, so both
formats share one carrier and promotion from float to double is the identity.
Arithmetic computes the exact result as a fraction of naturals and rounds it
once, to nearest with ties to even, to the destination format; a rounded
magnitude at or above 2^(emax+1) overflows to infinity.  NaN payloads and
exception flags are not modelled.  Evaluation follows FLT_EVAL_METHOD 0 (each
operation is rounded to the type of its operands) without fused
multiply-add contraction.

The library function log is a parameter of the embedding.

Integers.  The int variables of aicp (sz, ii, the inner counters, minidx) stay
within 0 .. sz during a call with 1 <= sz, so they are naturals here.

Memory.  A pointer to float is a map from offsets to values.  The input and
output regions are assumed not to overlap.
-/

namespace Aurem

/-- IEEE 754 datum: NaN, a signed infinity, or a signed finite magnitude in
units of 2^-1074 (neg = true is the sign bit). -/
inductive Fp where
  | nan : Fp
  | inf (neg : Bool) : Fp
  | fin (neg : Bool) (mag : Nat) : Fp
deriving DecidableEq, Repr

/-- Binary interchange format: significand precision in bits, binary logarithm
of the least positive subnormal (in units), binary logarithm of the overflow
threshold 2^(emax+1) (in units). -/
structure Format where
  prec : Nat
  quantum : Nat
  top : Nat
deriving DecidableEq, Repr

/-- C float: p = 24, least subnormal 2^-149, overflow threshold 2^128. -/
def binary32 : Format := ⟨24, 925, 1202⟩

/-- C double: p = 53, least subnormal 2^-1074, overflow threshold 2^1024. -/
def binary64 : Format := ⟨53, 0, 2098⟩

/-- Binary logarithm of the number of units in 1.0. -/
def unitExp : Nat := 1074

/-- Digit counting loop: fuel, remaining number, digits counted so far. -/
def bitsAux : Nat → Nat → Nat → Nat
  | 0, _, acc => acc
  | fuel + 1, n, acc => if n = 0 then acc else bitsAux fuel (n / 2) (acc + 1)

/-- Number of binary digits of n (0 for n = 0). -/
def bits (n : Nat) : Nat := bitsAux n n 0

/-- Nearest integer to num / den, ties to the even integer. -/
def roundNearestEven (num den : Nat) : Nat :=
  let q := num / den
  let r := num % den
  if 2 * r < den then q
  else if den < 2 * r then q + 1
  else if q % 2 = 0 then q else q + 1

/-- Round the exact magnitude num / den (in units) into format f with the
given sign.  The last kept binary digit has weight 2^t where t is the larger
of the subnormal quantum and (position of the leading digit) - prec + 1. -/
def Format.round (f : Format) (neg : Bool) (num den : Nat) : Fp :=
  let t := max (bits (num / den) - f.prec) f.quantum
  let m := roundNearestEven num (den * 2 ^ t) * 2 ^ t
  if m < 2 ^ f.top then Fp.fin neg m else Fp.inf neg

/-- Sign flip (unary minus). -/
def Fp.neg : Fp → Fp
  | .nan => .nan
  | .inf s => .inf (!s)
  | .fin s m => .fin (!s) m

/-- Addition rounded to format f. -/
def Format.add (f : Format) : Fp → Fp → Fp
  | .nan, _ => .nan
  | _, .nan => .nan
  | .inf a, .inf b => if a = b then .inf a else .nan
  | .inf a, .fin _ _ => .inf a
  | .fin _ _, .inf b => .inf b
  | .fin a m, .fin b n =>
    if a = b then f.round a (m + n) 1
    else if n < m then f.round a (m - n) 1
    else if m < n then f.round b (n - m) 1
    else .fin false 0

/-- Subtraction rounded to format f: x - y is x + (-y). -/
def Format.sub (f : Format) (x y : Fp) : Fp := f.add x y.neg

/-- Multiplication rounded to format f. -/
def Format.mul (f : Format) : Fp → Fp → Fp
  | .nan, _ => .nan
  | _, .nan => .nan
  | .inf a, .inf b => .inf (xor a b)
  | .inf a, .fin b n => if n = 0 then .nan else .inf (xor a b)
  | .fin a m, .inf b => if m = 0 then .nan else .inf (xor a b)
  | .fin a m, .fin b n => f.round (xor a b) (m * n) (2 ^ unitExp)

/-- Division rounded to format f. -/
def Format.div (f : Format) : Fp → Fp → Fp
  | .nan, _ => .nan
  | _, .nan => .nan
  | .inf _, .inf _ => .nan
  | .inf a, .fin b _ => .inf (xor a b)
  | .fin a _, .inf b => .fin (xor a b) 0
  | .fin a m, .fin b n =>
    if n = 0 then (if m = 0 then .nan else .inf (xor a b))
    else f.round (xor a b) (m * 2 ^ unitExp) n

/-- Conversion of a nonnegative int to format f. -/
def Format.ofNat (f : Format) (k : Nat) : Fp := f.round false (k * 2 ^ unitExp) 1

/-- Conversion of a value to format f (double to float on assignment). -/
def Format.convert (f : Format) : Fp → Fp
  | .nan => .nan
  | .inf s => .inf s
  | .fin s m => f.round s m 1

/-- Promotion of a float to double: exact. -/
def promote (x : Fp) : Fp := x

/-- Signed integer value of a finite datum, in units. -/
def Fp.signed (neg : Bool) (mag : Nat) : Int := if neg then -(mag : Int) else (mag : Int)

/-- C operator < on floating values: false when an operand is NaN. -/
def Fp.lt : Fp → Fp → Bool
  | .fin a m, .fin b n => decide (Fp.signed a m < Fp.signed b n)
  | .fin _ _, .inf false => true
  | .inf true, .fin _ _ => true
  | .inf true, .inf false => true
  | _, _ => false

/-- C operator <= on floating values: false when an operand is NaN. -/
def Fp.le : Fp → Fp → Bool
  | .fin a m, .fin b n => decide (Fp.signed a m ≤ Fp.signed b n)
  | .fin _ _, .inf false => true
  | .inf true, .fin _ _ => true
  | .inf a, .inf b => a || !b
  | _, _ => false

/-- C macro isinf. -/
def Fp.isinf : Fp → Bool
  | .inf _ => true
  | _ => false

/-- C macro isnan. -/
def Fp.isnan : Fp → Bool
  | .nan => true
  | _ => false

/-- C macro isfinite. -/
def Fp.isfinite : Fp → Bool
  | .fin _ _ => true
  | _ => false

/-- Numeric zero of either sign. -/
def Fp.isZero : Fp → Bool
  | .fin _ 0 => true
  | _ => false

/-- C macro INFINITY. -/
def INFINITY : Fp := .inf false

/-- The constant 0.0. -/
def zero : Fp := .fin false 0

/-- C for loop: for (i = lo; i < hi; i++) s = body i s. -/
def forLoop {σ : Type} (lo hi : Nat) (body : Nat → σ → σ) (s : σ) : σ :=
  (List.range' lo (hi - lo)).foldl (fun acc i => body i acc) s

/-- Store v at offset k. -/
def write (m : Nat → Fp) (k : Nat) (v : Fp) : Nat → Fp :=
  fun j => if j = k then v else m j

/-- Effect of memset(p, 0, cnt * sizeof(float)): the first cnt floats become +0.0. -/
def memsetZero (m : Nat → Fp) (cnt : Nat) : Nat → Fp :=
  fun j => if j < cnt then zero else m j

/-- Lines 57-60 and 75-78: sum of arr[lo .. hi) accumulated from 0.0. -/
def sumLoop (arr : Nat → Fp) (lo hi : Nat) : Fp :=
  forLoop lo hi (fun x s => binary32.add s (arr x)) zero

/-- Lines 63-67 and 81-85: sum over arr[lo .. hi) of (arr[x] - mean) * (arr[x] - mean). -/
def sdevLoop (arr : Nat → Fp) (lo hi : Nat) (mean : Fp) : Fp :=
  forLoop lo hi
    (fun x s => binary32.add s (binary32.mul (binary32.sub (arr x) mean) (binary32.sub (arr x) mean)))
    zero

/-- Value of sdevOne at split ii (lines 57-67). -/
def sdevOne (arr : Nat → Fp) (ii : Nat) : Fp :=
  sdevLoop arr 0 ii (binary32.div (sumLoop arr 0 ii) (binary32.ofNat ii))

/-- Value of sdevTwo at split ii (lines 75-85). -/
def sdevTwo (arr : Nat → Fp) (sz ii : Nat) : Fp :=
  sdevLoop arr ii sz (binary32.div (sumLoop arr ii sz) (binary32.ofNat (sz - ii)))

/-- Line 70: valOne = ii * log(sdevOne / ii), the product taken in double and
stored to a float. -/
def valOne (log : Fp → Fp) (arr : Nat → Fp) (ii : Nat) : Fp :=
  binary32.convert
    (binary64.mul (binary64.ofNat ii)
      (log (promote (binary32.div (sdevOne arr ii) (binary32.ofNat ii)))))

/-- Line 88: valTwo = (sz - ii - 1) * log(sdevTwo / (sz - ii)). -/
def valTwo (log : Fp → Fp) (arr : Nat → Fp) (sz ii : Nat) : Fp :=
  binary32.convert
    (binary64.mul (binary64.ofNat (sz - ii - 1))
      (log (promote (binary32.div (sdevTwo arr sz ii) (binary32.ofNat (sz - ii))))))

/-- Line 91: the sum valOne + valTwo first stored in aic[ii - 1]. -/
def rawAic (log : Fp → Fp) (arr : Nat → Fp) (sz ii : Nat) : Fp :=
  binary32.add (valOne log arr ii) (valTwo log arr sz ii)

/-- Loop state of aicp: the output region, minidx and minval. -/
structure State where
  aic : Nat → Fp
  minidx : Nat
  minval : Fp

/-- Body of the main loop (lines 56-108) for one value of ii. -/
def aicpStep (log : Fp → Fp) (arr : Nat → Fp) (sz ii : Nat) (st : State) : State :=
  let aic1 := write st.aic (ii - 1) (rawAic log arr sz ii)
  let aic2 := if (aic1 (ii - 1)).isinf then write aic1 (ii - 1) INFINITY else aic1
  let aic3 := if (aic2 (ii - 1)).isnan then write aic2 (ii - 1) INFINITY else aic2
  if (aic3 (ii - 1)).lt st.minval then
    { aic := aic3, minidx := ii - 1, minval := aic3 (ii - 1) }
  else
    { aic := aic3, minidx := st.minidx, minval := st.minval }

/-- Outcome of a call: return value, output region, content of the slot
behind pminidx. -/
structure Result where
  status : Int
  aic : Nat → Fp
  pminidx : Nat

/-- The function aicp (lines 33-113).  The arguments aic and pminidx are the
contents of the output region and of the index slot at entry; the slot is
only ever written (line 111). -/
def aicp (log : Fp → Fp) (arr : Nat → Fp) (sz : Nat) (aic : Nat → Fp) (_pminidx : Nat) : Result :=
  let st0 : State := { aic := memsetZero aic (sz - 1), minidx := 0, minval := INFINITY }
  let st := forLoop 1 sz (aicpStep log arr sz) st0
  { status := 0, aic := st.aic, pminidx := st.minidx }

/-! ## Derived quantities used to state the results -/

/-- Lines 95-101 applied to a stored value: an infinity of either sign and a
NaN are replaced by INFINITY. -/
def sanitize (x : Fp) : Fp :=
  let y := if x.isinf then INFINITY else x
  if y.isnan then INFINITY else y

/-- Value held by aic[ii - 1] when iteration ii reaches line 105. -/
def aicEntry (log : Fp → Fp) (arr : Nat → Fp) (sz ii : Nat) : Fp :=
  sanitize (rawAic log arr sz ii)

/-- State after the iterations ii = 1 .. k of the main loop. -/
def loopState (log : Fp → Fp) (arr : Nat → Fp) (sz : Nat) (aic : Nat → Fp) (k : Nat) : State :=
  (List.range' 1 k).foldl (fun acc i => aicpStep log arr sz i acc)
    { aic := memsetZero aic (sz - 1), minidx := 0, minval := INFINITY }

/-- Invariant of the main loop after k iterations, e being the sanitized
entry of each split and aic0 the output region the loop started from. -/
structure LoopInv (e : Nat → Fp) (aic0 : Nat → Fp) (k : Nat) (st : State) : Prop where
  written : ∀ j, j < k → st.aic j = e (j + 1)
  untouched : ∀ j, k ≤ j → st.aic j = aic0 j
  lower : ∀ j, j < k → st.minval.le (e (j + 1)) = true
  strict : ∀ j, j < st.minidx → st.minval.lt (e (j + 1)) = true
  track : (st.minval = INFINITY ∧ st.minidx = 0 ∧ ∀ j, j < k → e (j + 1) = INFINITY) ∨
    (st.minidx < k ∧ st.minval = e (st.minidx + 1) ∧ st.minval ≠ INFINITY)

/-! ## The formula of the specification (section 4.1, steps 1 to 4) -/

/-- Samples signal[lo .. hi) in order. -/
def segment (signal : Nat → Fp) (lo hi : Nat) : List Fp :=
  (List.range' lo (hi - lo)).map signal

/-- Sample mean of a segment: the float sum of its samples over its length. -/
def specMean (seg : List Fp) : Fp :=
  binary32.div (seg.foldl binary32.add zero) (binary32.ofNat seg.length)

/-- Sum of squared deviations of a segment from its mean. -/
def specDevSum (seg : List Fp) : Fp :=
  (seg.map (fun x => binary32.mul (binary32.sub x (specMean seg)) (binary32.sub x (specMean seg)))).foldl
    binary32.add zero

/-- Penalty mult * ln(devSum / len): quotient in float, logarithm and product
in double, result a float. -/
def specPenalty (log : Fp → Fp) (mult len : Nat) (devSum : Fp) : Fp :=
  binary32.convert (binary64.mul (binary64.ofNat mult) (log (binary32.div devSum (binary32.ofNat len))))

/-- Steps 1 to 3: i * ln(devSumLead / i) + (n - i - 1) * ln(devSumTrail / (n - i)). -/
def specAic (log : Fp → Fp) (signal : Nat → Fp) (n i : Nat) : Fp :=
  binary32.add (specPenalty log i i (specDevSum (segment signal 0 i)))
    (specPenalty log (n - i - 1) (n - i) (specDevSum (segment signal i n)))

/-- Step 4: the value when it is a finite number, positive infinity otherwise. -/
def specProfile (log : Fp → Fp) (signal : Nat → Fp) (n i : Nat) : Fp :=
  if (specAic log signal n i).isfinite then specAic log signal n i else INFINITY

/-! ## The library logarithm -/

/-- Special values of log required by C Annex F (F.10.3.7). -/
structure AnnexF (log : Fp → Fp) : Prop where
  zero : ∀ s, log (.fin s 0) = .inf true
  nan : log .nan = .nan
  negative : ∀ m, 0 < m → log (.fin true m) = .nan
  ninf : log (.inf true) = .nan
  pinf : log (.inf false) = .inf false

/-- Numerator of ln 2 over 2^53. -/
def ln2Num : Nat := 6243314768165359

/-- A coarse concrete logarithm: ln 2 times a piecewise linear binary
logarithm, rounded to binary64, with the Annex F special values.  It serves as
a concrete instance wherever a logarithm has to be evaluated. -/
def logApprox : Fp → Fp
  | .nan => .nan
  | .inf true => .nan
  | .inf false => .inf false
  | .fin s m =>
    if m = 0 then .inf true
    else if s then .nan
    else
      let l := bits m - 1
      let v : Int := ((l : Int) - (unitExp : Int)) * 2 ^ l + ((m : Int) - 2 ^ l)
      binary64.round (decide (v < 0)) (v.natAbs * ln2Num * 2 ^ unitExp) (2 ^ l * 2 ^ 53)

/-! ## Concrete signals -/

/-- The signal whose first samples are the given list. -/
def signalOf (xs : List Fp) : Nat → Fp := fun i => xs.getD i zero

/-- The float 10.0. -/
def ten : Fp := binary32.ofNat 10

/-- The step signal 0,0,0,0,10,10,10,10. -/
def stepSignal : Nat → Fp := signalOf [zero, zero, zero, zero, ten, ten, ten, ten]

/-- The float nearest to 0.3, computed as 3.0f / 10.0f. -/
def threeTenths : Fp := binary32.div (binary32.ofNat 3) (binary32.ofNat 10)

/-- A constant signal. -/
def constSignal (c : Fp) : Nat → Fp := fun _ => c

/-- The signal 0,1,3,2. -/
def zigzag : Nat → Fp :=
  signalOf [zero, binary32.ofNat 1, binary32.ofNat 3, binary32.ofNat 2]

/-- Six samples 0.3f followed by 0,1,3,2,5,4. -/
def flatThenRough : Nat → Fp :=
  signalOf [threeTenths, threeTenths, threeTenths, threeTenths, threeTenths, threeTenths,
    zero, binary32.ofNat 1, binary32.ofNat 3, binary32.ofNat 2, binary32.ofNat 5, binary32.ofNat 4]

/-! ## The placeholder recp -/

/-- Outcome of a call of recp: the text sent to standard output, the output
region and the content of the slot behind minidx.  The function body has no
return statement, so no return value is modelled. -/
structure RecpResult where
  printed : String
  aic : Nat → Fp
  minidx : Nat

/-- The function recp (lines 117-120): one call of printf and nothing else. -/
def recp (_arr : Nat → Fp) (_sz : Nat) (aic : Nat → Fp) (minidx : Nat) : RecpResult :=
  { printed := "Hello World\n", aic := aic, minidx := minidx }

/-! ## Exact arithmetic

The function aicp read over a linearly ordered field K in place of the two
floating formats: every operation delivers the exact result, there is no
overflow and a single zero, and the conversions between float and double are
the identity.  The logarithm of K is a parameter ln. -/

namespace Exact

/-- Value in exact arithmetic: NaN, a signed infinity, or a number of K. -/
inductive Val (K : Type) where
  | nan : Val K
  | inf (neg : Bool) : Val K
  | num (x : K) : Val K

/-- Unary minus. -/
def Val.neg {K : Type} [LinearOrderedField K] : Val K → Val K
  | .nan => .nan
  | .inf s => .inf (!s)
  | .num x => .num (-x)

/-- Exact addition with the IEEE rules for NaN and the infinities. -/
def add {K : Type} [LinearOrderedField K] : Val K → Val K → Val K
  | .nan, _ => .nan
  | _, .nan => .nan
  | .inf a, .inf b => if a = b then .inf a else .nan
  | .inf a, .num _ => .inf a
  | .num _, .inf b => .inf b
  | .num x, .num y => .num (x + y)

/-- Exact subtraction. -/
def sub {K : Type} [LinearOrderedField K] (x y : Val K) : Val K := add x y.neg

/-- Exact multiplication with the IEEE rules for NaN and the infinities. -/
def mul {K : Type} [LinearOrderedField K] : Val K → Val K → Val K
  | .nan, _ => .nan
  | _, .nan => .nan
  | .inf a, .inf b => .inf (xor a b)
  | .inf a, .num y => if y = 0 then .nan else .inf (xor a (decide (y < 0)))
  | .num x, .inf b => if x = 0 then .nan else .inf (xor (decide (x < 0)) b)
  | .num x, .num y => .num (x * y)

/-- Exact division with the IEEE rules for NaN, the infinities and a zero
divisor. -/
def div {K : Type} [LinearOrderedField K] : Val K → Val K → Val K
  | .nan, _ => .nan
  | _, .nan => .nan
  | .inf _, .inf _ => .nan
  | .inf a, .num y => .inf (xor a (decide (y < 0)))
  | .num _, .inf _ => .num 0
  | .num x, .num y =>
    if y = 0 then (if x = 0 then .nan else .inf (decide (x < 0))) else .num (x / y)

/-- Conversion of a nonnegative int. -/
def ofNat {K : Type} [LinearOrderedField K] (k : Nat) : Val K := .num (k : K)

/-- The function log: minus infinity at zero, NaN below zero, ln elsewhere. -/
def log {K : Type} [LinearOrderedField K] (ln : K → K) : Val K → Val K
  | .nan => .nan
  | .inf true => .nan
  | .inf false => .inf false
  | .num x => if x = 0 then .inf true else if x < 0 then .nan else .num (ln x)

/-- C operator < : false when an operand is NaN. -/
def Val.lt {K : Type} [LinearOrderedField K] : Val K → Val K → Bool
  | .num x, .num y => decide (x < y)
  | .num _, .inf false => true
  | .inf true, .num _ => true
  | .inf true, .inf false => true
  | _, _ => false

/-- C macro isinf. -/
def Val.isinf {K : Type} : Val K → Bool
  | .inf _ => true
  | _ => false

/-- C macro isnan. -/
def Val.isnan {K : Type} : Val K → Bool
  | .nan => true
  | _ => false

/-- C macro INFINITY. -/
def INFINITY {K : Type} : Val K := .inf false

/-- Store v at offset k. -/
def write {K : Type} (m : Nat → Val K) (k : Nat) (v : Val K) : Nat → Val K :=
  fun j => if j = k then v else m j

/-- Effect of memset on the first cnt entries. -/
def memsetZero {K : Type} [LinearOrderedField K] (m : Nat → Val K) (cnt : Nat) : Nat → Val K :=
  fun j => if j < cnt then .num 0 else m j

/-- Lines 57-60 and 75-78. -/
def sumLoop {K : Type} [LinearOrderedField K] (arr : Nat → Val K) (lo hi : Nat) : Val K :=
  forLoop lo hi (fun x s => add s (arr x)) (.num 0)

/-- Lines 63-67 and 81-85. -/
def sdevLoop {K : Type} [LinearOrderedField K] (arr : Nat → Val K) (lo hi : Nat)
    (mean : Val K) : Val K :=
  forLoop lo hi (fun x s => add s (mul (sub (arr x) mean) (sub (arr x) mean))) (.num 0)

/-- Value of sdevOne at split ii (lines 57-67). -/
def sdevOne {K : Type} [LinearOrderedField K] (arr : Nat → Val K) (ii : Nat) : Val K :=
  sdevLoop arr 0 ii (div (sumLoop arr 0 ii) (ofNat ii))

/-- Value of sdevTwo at split ii (lines 75-85). -/
def sdevTwo {K : Type} [LinearOrderedField K] (arr : Nat → Val K) (sz ii : Nat) : Val K :=
  sdevLoop arr ii sz (div (sumLoop arr ii sz) (ofNat (sz - ii)))

/-- Line 70. -/
def valOne {K : Type} [LinearOrderedField K] (ln : K → K) (arr : Nat → Val K) (ii : Nat) :
    Val K :=
  mul (ofNat ii) (log ln (div (sdevOne arr ii) (ofNat ii)))

/-- Line 88. -/
def valTwo {K : Type} [LinearOrderedField K] (ln : K → K) (arr : Nat → Val K) (sz ii : Nat) :
    Val K :=
  mul (ofNat (sz - ii - 1)) (log ln (div (sdevTwo arr sz ii) (ofNat (sz - ii))))

/-- Line 91. -/
def rawAic {K : Type} [LinearOrderedField K] (ln : K → K) (arr : Nat → Val K) (sz ii : Nat) :
    Val K :=
  add (valOne ln arr ii) (valTwo ln arr sz ii)

/-- Loop state: the output region, minidx and minval. -/
structure State (K : Type) where
  aic : Nat → Val K
  minidx : Nat
  minval : Val K

/-- Body of the main loop (lines 56-108). -/
def aicpStep {K : Type} [LinearOrderedField K] (ln : K → K) (arr : Nat → Val K) (sz ii : Nat)
    (st : State K) : State K :=
  let aic1 := write st.aic (ii - 1) (rawAic ln arr sz ii)
  let aic2 := if (aic1 (ii - 1)).isinf then write aic1 (ii - 1) INFINITY else aic1
  let aic3 := if (aic2 (ii - 1)).isnan then write aic2 (ii - 1) INFINITY else aic2
  if (aic3 (ii - 1)).lt st.minval then
    { aic := aic3, minidx := ii - 1, minval := aic3 (ii - 1) }
  else
    { aic := aic3, minidx := st.minidx, minval := st.minval }

/-- Outcome of a call. -/
structure Result (K : Type) where
  status : Int
  aic : Nat → Val K
  pminidx : Nat

/-- The function aicp (lines 33-113) in exact arithmetic. -/
def aicp {K : Type} [LinearOrderedField K] (ln : K → K) (arr : Nat → Val K) (sz : Nat)
    (aic : Nat → Val K) (_pminidx : Nat) : Result K :=
  let st0 : State K := { aic := memsetZero aic (sz - 1), minidx := 0, minval := INFINITY }
  let st := forLoop 1 sz (aicpStep ln arr sz) st0
  { status := 0, aic := st.aic, pminidx := st.minidx }

/-- Lines 95-101 applied to a stored value. -/
def sanitize {K : Type} (x : Val K) : Val K :=
  let y := if x.isinf then INFINITY else x
  if y.isnan then INFINITY else y

/-- Value held by aic[ii - 1] when iteration ii reaches line 105. -/
def aicEntry {K : Type} [LinearOrderedField K] (ln : K → K) (arr : Nat → Val K) (sz ii : Nat) :
    Val K :=
  sanitize (rawAic ln arr sz ii)

/-- State after the iterations ii = 1 .. k of the main loop. -/
def loopState {K : Type} [LinearOrderedField K] (ln : K → K) (arr : Nat → Val K) (sz : Nat)
    (aic : Nat → Val K) (k : Nat) : State K :=
  (List.range' 1 k).foldl (fun acc i => aicpStep ln arr sz i acc)
    { aic := memsetZero aic (sz - 1), minidx := 0, minval := INFINITY }

/-- A signal of numbers as an array of values. -/
def embed {K : Type} (sig : Nat → K) : Nat → Val K := fun i => .num (sig i)

/-- The signal with every sample multiplied by the gain g. -/
def scale {K : Type} [LinearOrderedField K] (g : K) (sig : Nat → K) : Nat → K :=
  fun i => g * sig i

/-- Add c to a number; NaN and the infinities stay. -/
def shift {K : Type} [LinearOrderedField K] (c : K) : Val K → Val K
  | .num x => .num (x + c)
  | v => v

/-- Sum of sig[lo .. hi) in K. -/
def sumK {K : Type} [LinearOrderedField K] (sig : Nat → K) (lo hi : Nat) : K :=
  forLoop lo hi (fun x s => s + sig x) 0

/-- Sum over sig[lo .. hi) of the squared deviations from mean, in K. -/
def sdevK {K : Type} [LinearOrderedField K] (sig : Nat → K) (lo hi : Nat) (mean : K) : K :=
  forLoop lo hi (fun x s => s + (sig x - mean) * (sig x - mean)) 0

/-- Sum of squared deviations of sig[lo .. hi) from its mean, in K. -/
def devK {K : Type} [LinearOrderedField K] (sig : Nat → K) (lo hi : Nat) : K :=
  sdevK sig lo hi (sumK sig lo hi / ((hi - lo : Nat) : K))

end Exact

/-! ## Order facts for the comparison operators -/

/-- A stored profile value after lines 95-101: INFINITY or a finite number. -/
def Fp.clean : Fp → Bool
  | .inf false => true
  | .fin _ _ => true
  | _ => false

theorem Fp.lt_le_trans {x y z : Fp} (h1 : x.lt y = true) (h2 : y.le z = true) :
    x.lt z = true := by
  rcases x with _ | a | ⟨a, m⟩ <;> rcases y with _ | b | ⟨b, n⟩ <;> rcases z with _ | c | ⟨c, p⟩
  all_goals (try cases a) <;> (try cases b) <;> (try cases c)
  all_goals first
    | exact absurd h1 Bool.false_ne_true
    | exact absurd h2 Bool.false_ne_true
    | rfl
    | (simp only [Fp.lt, Fp.le, decide_eq_true_eq] at *; exact Int.lt_of_lt_of_le h1 h2)

theorem Fp.lt_imp_le {x y : Fp} (h : x.lt y = true) : x.le y = true := by
  rcases x with _ | a | ⟨a, m⟩ <;> rcases y with _ | b | ⟨b, n⟩
  all_goals (try cases a) <;> (try cases b)
  all_goals first
    | exact absurd h Bool.false_ne_true
    | rfl
    | (simp only [Fp.lt, Fp.le, decide_eq_true_eq] at *; exact Int.le_of_lt h)

theorem Fp.not_lt_imp_le {x y : Fp} (hx : x.clean = true) (hy : y.clean = true)
    (h : x.lt y = false) : y.le x = true := by
  rcases x with _ | a | ⟨a, m⟩ <;> rcases y with _ | b | ⟨b, n⟩
  all_goals (try cases a) <;> (try cases b)
  all_goals first
    | exact absurd hx Bool.false_ne_true
    | exact absurd hy Bool.false_ne_true
    | exact absurd h.symm Bool.false_ne_true
    | rfl
    | (simp only [Fp.lt, Fp.le, decide_eq_true_eq, decide_eq_false_iff_not, not_lt] at *; exact h)

theorem Fp.le_refl_of_clean {x : Fp} (hx : x.clean = true) : x.le x = true := by
  rcases x with _ | a | ⟨a, m⟩
  · simp [Fp.clean] at hx
  · cases a <;> simp [Fp.clean] at hx; rfl
  · simp [Fp.le]

theorem Fp.eq_inf_of_not_lt {x : Fp} (hx : x.clean = true) (h : x.lt INFINITY = false) :
    x = INFINITY := by
  rcases x with _ | a | ⟨a, m⟩
  · simp [Fp.clean] at hx
  · cases a
    · rfl
    · simp [Fp.clean] at hx
  · simp [Fp.lt, INFINITY] at h

theorem Fp.ne_inf_of_lt {x y : Fp} (h : x.lt y = true) : x ≠ INFINITY := by
  intro hx
  subst hx
  rcases y with _ | b | ⟨b, n⟩ <;> simp [Fp.lt, INFINITY] at h

theorem Fp.clean_cases {x : Fp} (hx : x.clean = true) : x = INFINITY ∨ x.isfinite = true := by
  rcases x with _ | a | ⟨a, m⟩
  · simp [Fp.clean] at hx
  · cases a
    · exact Or.inl rfl
    · simp [Fp.clean] at hx
  · exact Or.inr rfl

theorem sanitize_clean (x : Fp) : (sanitize x).clean = true := by
  rcases x with _ | a | ⟨a, m⟩ <;> rfl

theorem aicEntry_clean (log : Fp → Fp) (arr : Nat → Fp) (sz ii : Nat) :
    (aicEntry log arr sz ii).clean = true :=
  sanitize_clean _

/-! ## The loop body and the loop invariant -/

theorem write_same (m : Nat → Fp) (k : Nat) (v : Fp) : write m k v k = v := by
  simp [write]

theorem write_write (m : Nat → Fp) (k : Nat) (v w : Fp) : write (write m k v) k w = write m k w := by
  funext j
  by_cases h : j = k <;> simp [write, h]

theorem aicpStep_eq (log : Fp → Fp) (arr : Nat → Fp) (sz ii : Nat) (st : State) :
    aicpStep log arr sz ii st =
      if (aicEntry log arr sz ii).lt st.minval = true then
        { aic := write st.aic (ii - 1) (aicEntry log arr sz ii), minidx := ii - 1,
          minval := aicEntry log arr sz ii }
      else
        { aic := write st.aic (ii - 1) (aicEntry log arr sz ii), minidx := st.minidx,
          minval := st.minval } := by
  unfold aicpStep aicEntry
  generalize rawAic log arr sz ii = r
  rcases r with _ | a | ⟨a, m⟩ <;>
    simp [sanitize, write_same, write_write, Fp.isinf, Fp.isnan, INFINITY]

theorem loopState_succ (log : Fp → Fp) (arr : Nat → Fp) (sz : Nat) (aic : Nat → Fp) (k : Nat) :
    loopState log arr sz aic (k + 1) = aicpStep log arr sz (k + 1) (loopState log arr sz aic k) := by
  unfold loopState
  rw [List.range'_concat, List.foldl_append]
  simp [Nat.add_comm]

theorem LoopInv.minval_clean {e aic0 : Nat → Fp} {k : Nat} {st : State}
    (he : ∀ i, (e i).clean = true) (ih : LoopInv e aic0 k st) : st.minval.clean = true := by
  rcases ih.track with ⟨h, _, _⟩ | ⟨_, h, _⟩
  · rw [h]; rfl
  · rw [h]; exact he _

theorem LoopInv.step {e aic0 : Nat → Fp} {k : Nat} {st : State}
    (he : ∀ i, (e i).clean = true) (ih : LoopInv e aic0 k st) :
    LoopInv e aic0 (k + 1)
      (if (e (k + 1)).lt st.minval = true then
        { aic := write st.aic k (e (k + 1)), minidx := k, minval := e (k + 1) }
      else { aic := write st.aic k (e (k + 1)), minidx := st.minidx, minval := st.minval }) := by
  have hclean := ih.minval_clean he
  have hw : ∀ j, j < k + 1 → write st.aic k (e (k + 1)) j = e (j + 1) := by
    intro j hj
    by_cases hjk : j = k
    · subst hjk; simp [write]
    · simp only [write, if_neg hjk]; exact ih.written j (by omega)
  have hu : ∀ j, k + 1 ≤ j → write st.aic k (e (k + 1)) j = aic0 j := by
    intro j hj
    have hjk : j ≠ k := by omega
    simp only [write, if_neg hjk]; exact ih.untouched j (by omega)
  by_cases hlt : (e (k + 1)).lt st.minval = true
  · rw [if_pos hlt]
    refine ⟨hw, hu, ?_, ?_, ?_⟩
    · intro j hj
      show (e (k + 1)).le (e (j + 1)) = true
      by_cases hjk : j = k
      · subst hjk; exact Fp.le_refl_of_clean (he _)
      · exact Fp.lt_imp_le (Fp.lt_le_trans hlt (ih.lower j (by omega)))
    · intro j hj
      show (e (k + 1)).lt (e (j + 1)) = true
      exact Fp.lt_le_trans hlt (ih.lower j hj)
    · exact Or.inr ⟨Nat.lt_succ_self k, rfl, Fp.ne_inf_of_lt hlt⟩
  · rw [if_neg hlt]
    have hlt2 : (e (k + 1)).lt st.minval = false := by simpa using hlt
    refine ⟨hw, hu, ?_, ih.strict, ?_⟩
    · intro j hj
      show st.minval.le (e (j + 1)) = true
      by_cases hjk : j = k
      · subst hjk; exact Fp.not_lt_imp_le (he _) hclean hlt2
      · exact ih.lower j (by omega)
    · rcases ih.track with ⟨h1, h2, h3⟩ | ⟨h1, h2, h3⟩
      · refine Or.inl ⟨h1, h2, ?_⟩
        intro j hj
        by_cases hjk : j = k
        · subst hjk; rw [h1] at hlt2; exact Fp.eq_inf_of_not_lt (he _) hlt2
        · exact h3 j (by omega)
      · exact Or.inr ⟨Nat.lt_succ_of_lt h1, h2, h3⟩

theorem loopInv_holds (log : Fp → Fp) (arr : Nat → Fp) (sz : Nat) (aic0 : Nat → Fp) (k : Nat) :
    LoopInv (aicEntry log arr sz) (memsetZero aic0 (sz - 1)) k (loopState log arr sz aic0 k) := by
  induction k with
  | zero =>
    refine ⟨?_, ?_, ?_, ?_, ?_⟩
    · intro j hj; omega
    · intro j _; rfl
    · intro j hj; omega
    · intro j hj; exact absurd hj (Nat.not_lt_zero j)
    · exact Or.inl ⟨rfl, rfl, fun j hj => absurd hj (Nat.not_lt_zero j)⟩
  | succ k ih =>
    rw [loopState_succ, aicpStep_eq]
    simp only [Nat.add_sub_cancel]
    exact LoopInv.step (aicEntry_clean log arr sz) ih

theorem aicp_eq_loopState (log : Fp → Fp) (arr : Nat → Fp) (sz : Nat) (aic0 : Nat → Fp) (slot : Nat) :
    aicp log arr sz aic0 slot =
      { status := 0, aic := (loopState log arr sz aic0 (sz - 1)).aic,
        pminidx := (loopState log arr sz aic0 (sz - 1)).minidx } := rfl

theorem aicp_aic (log : Fp → Fp) (arr : Nat → Fp) (sz : Nat) (aic0 : Nat → Fp) (slot : Nat) :
    (aicp log arr sz aic0 slot).aic = (loopState log arr sz aic0 (sz - 1)).aic := rfl

theorem aicp_pminidx (log : Fp → Fp) (arr : Nat → Fp) (sz : Nat) (aic0 : Nat → Fp) (slot : Nat) :
    (aicp log arr sz aic0 slot).pminidx = (loopState log arr sz aic0 (sz - 1)).minidx := rfl

theorem aicp_inv (log : Fp → Fp) (arr : Nat → Fp) (sz : Nat) (aic0 : Nat → Fp) :
    LoopInv (aicEntry log arr sz) (memsetZero aic0 (sz - 1)) (sz - 1)
      (loopState log arr sz aic0 (sz - 1)) :=
  loopInv_holds log arr sz aic0 (sz - 1)

/-- Each profile position holds the sanitized value computed at its split. -/
theorem aicp_aic_eq (log : Fp → Fp) (arr : Nat → Fp) (sz : Nat) (aic0 : Nat → Fp) (slot : Nat)
    (j : Nat) (hj : j < sz - 1) :
    (aicp log arr sz aic0 slot).aic j = aicEntry log arr sz (j + 1) :=
  (aicp_inv log arr sz aic0).written j hj

/-- With at least one split, the recorded index is a split position and the
running minimum is the value stored there. -/
theorem LoopInv.pick {e aic0 : Nat → Fp} {k : Nat} {st : State} (ih : LoopInv e aic0 k st)
    (hk : 0 < k) : st.minidx < k ∧ st.minval = e (st.minidx + 1) := by
  rcases ih.track with ⟨h1, h2, h3⟩ | ⟨h1, h2, _⟩
  · rw [h2, h1]
    exact ⟨hk, (h3 0 hk).symm⟩
  · exact ⟨h1, h2⟩

theorem loopState_min_indep (log : Fp → Fp) (arr : Nat → Fp) (sz : Nat) (a1 a2 : Nat → Fp) (k : Nat) :
    (loopState log arr sz a1 k).minidx = (loopState log arr sz a2 k).minidx ∧
      (loopState log arr sz a1 k).minval = (loopState log arr sz a2 k).minval := by
  induction k with
  | zero => exact ⟨rfl, rfl⟩
  | succ k ih =>
    rw [loopState_succ, loopState_succ, aicpStep_eq, aicpStep_eq, ih.2]
    by_cases h : (aicEntry log arr sz (k + 1)).lt (loopState log arr sz a2 k).minval = true
    · rw [if_pos h, if_pos h]; exact ⟨rfl, rfl⟩
    · rw [if_neg h, if_neg h]; exact ⟨ih.1, rfl⟩

/-! ## Results on aicp -/

/-- C1: the index delivered by aicp points at a global minimum of the profile:
the entry at the pick index is less than or equal to the entry at every
position j of the n - 1 profile positions. -/
theorem aicp_pick_global_min (log : Fp → Fp) (arr : Nat → Fp) (sz : Nat) (aic0 : Nat → Fp)
    (slot j : Nat) (hj : j < sz - 1) :
    ((aicp log arr sz aic0 slot).aic (aicp log arr sz aic0 slot).pminidx).le
      ((aicp log arr sz aic0 slot).aic j) = true := by
  have inv := aicp_inv log arr sz aic0
  have hp := inv.pick (Nat.lt_of_le_of_lt (Nat.zero_le j) hj)
  have h := inv.lower j hj
  rw [aicp_aic, aicp_pminidx, inv.written _ hp.1, inv.written j hj, ← hp.2]
  exact h

/-- C1 instance: signal 0,1,3,2 and profile position 2. -/
theorem aicp_pick_global_min_witness :
    2 < 4 - 1 ∧
      ((aicp logApprox zigzag 4 (fun _ => zero) 0).aic
          (aicp logApprox zigzag 4 (fun _ => zero) 0).pminidx).le
        ((aicp logApprox zigzag 4 (fun _ => zero) 0).aic 2) = true :=
  ⟨by decide, aicp_pick_global_min logApprox zigzag 4 (fun _ => zero) 0 2 (by decide)⟩

/-- C2: the pick index is the first position holding the minimum: every entry
at a position before the pick index is strictly greater than the entry at the
pick index. -/
theorem aicp_pick_first_min (log : Fp → Fp) (arr : Nat → Fp) (sz : Nat) (aic0 : Nat → Fp)
    (slot j : Nat) (hj : j < (aicp log arr sz aic0 slot).pminidx) :
    ((aicp log arr sz aic0 slot).aic (aicp log arr sz aic0 slot).pminidx).lt
      ((aicp log arr sz aic0 slot).aic j) = true := by
  have inv := aicp_inv log arr sz aic0
  rw [aicp_pminidx] at hj
  rcases inv.track with ⟨_, h2, _⟩ | ⟨h1, h2, _⟩
  · exact absurd hj (by rw [h2]; exact Nat.not_lt_zero j)
  · have h := inv.strict j hj
    rw [aicp_aic, aicp_pminidx, inv.written _ h1, inv.written j (Nat.lt_trans hj h1), ← h2]
    exact h

/-- C2 instance: signal 0,1,3,2, where the pick index is 1 and position 0 comes
before it. -/
theorem aicp_pick_first_min_witness :
    0 < (aicp logApprox zigzag 4 (fun _ => zero) 0).pminidx ∧
      ((aicp logApprox zigzag 4 (fun _ => zero) 0).aic
          (aicp logApprox zigzag 4 (fun _ => zero) 0).pminidx).lt
        ((aicp logApprox zigzag 4 (fun _ => zero) 0).aic 0) = true :=
  ⟨by decide!, aicp_pick_first_min logApprox zigzag 4 (fun _ => zero) 0 0 (by decide!)⟩

/-- C3: for a signal of length n >= 2 the pick index is a position of the
profile, that is, it is at most n - 2. -/
theorem aicp_pick_in_range (log : Fp → Fp) (arr : Nat → Fp) (sz : Nat) (aic0 : Nat → Fp)
    (slot : Nat) (hsz : 2 ≤ sz) :
    (aicp log arr sz aic0 slot).pminidx ≤ sz - 2 := by
  have hp := (aicp_inv log arr sz aic0).pick (by omega)
  have h : (aicp log arr sz aic0 slot).pminidx < sz - 1 := hp.1
  omega

/-- C3 instance: signal 0,1,3,2. -/
theorem aicp_pick_in_range_witness :
    2 ≤ 4 ∧ (aicp logApprox zigzag 4 (fun _ => zero) 0).pminidx ≤ 4 - 2 :=
  ⟨by decide, aicp_pick_in_range logApprox zigzag 4 (fun _ => zero) 0 (by decide)⟩

/-- C4: every one of the n - 1 profile entries is positive infinity or a finite
number; none is NaN and none is negative infinity. -/
theorem aicp_entries_clean (log : Fp → Fp) (arr : Nat → Fp) (sz : Nat) (aic0 : Nat → Fp)
    (slot j : Nat) (hj : j < sz - 1) :
    ((aicp log arr sz aic0 slot).aic j = INFINITY ∨
        ((aicp log arr sz aic0 slot).aic j).isfinite = true) ∧
      (aicp log arr sz aic0 slot).aic j ≠ Fp.nan ∧
      (aicp log arr sz aic0 slot).aic j ≠ Fp.inf true := by
  rw [aicp_aic_eq log arr sz aic0 slot j hj]
  have h := aicEntry_clean log arr sz (j + 1)
  refine ⟨Fp.clean_cases h, ?_, ?_⟩
  · intro hn; rw [hn] at h; exact absurd h Bool.false_ne_true
  · intro hn; rw [hn] at h; exact absurd h Bool.false_ne_true

/-- C4 instance: signal 0,1,3,2 and profile position 1. -/
theorem aicp_entries_clean_witness :
    1 < 4 - 1 ∧
      (((aicp logApprox zigzag 4 (fun _ => zero) 0).aic 1 = INFINITY ∨
        ((aicp logApprox zigzag 4 (fun _ => zero) 0).aic 1).isfinite = true) ∧
      (aicp logApprox zigzag 4 (fun _ => zero) 0).aic 1 ≠ Fp.nan ∧
      (aicp logApprox zigzag 4 (fun _ => zero) 0).aic 1 ≠ Fp.inf true) :=
  ⟨by decide, aicp_entries_clean logApprox zigzag 4 (fun _ => zero) 0 1 (by decide)⟩

theorem sumLoop_eq_fold (arr : Nat → Fp) (lo hi : Nat) :
    sumLoop arr lo hi = (segment arr lo hi).foldl binary32.add zero := by
  unfold sumLoop forLoop segment
  rw [List.foldl_map]

theorem segment_length (arr : Nat → Fp) (lo hi : Nat) : (segment arr lo hi).length = hi - lo := by
  simp [segment]

theorem sdevLoop_eq_fold (arr : Nat → Fp) (lo hi : Nat) (mean : Fp) :
    sdevLoop arr lo hi mean =
      ((segment arr lo hi).map
        (fun x => binary32.mul (binary32.sub x mean) (binary32.sub x mean))).foldl
        binary32.add zero := by
  unfold sdevLoop forLoop segment
  rw [List.foldl_map, List.foldl_map]

theorem sdevOne_eq_spec (arr : Nat → Fp) (ii : Nat) :
    sdevOne arr ii = specDevSum (segment arr 0 ii) := by
  unfold sdevOne specDevSum specMean
  rw [sdevLoop_eq_fold, sumLoop_eq_fold, segment_length, Nat.sub_zero]

theorem sdevTwo_eq_spec (arr : Nat → Fp) (sz ii : Nat) :
    sdevTwo arr sz ii = specDevSum (segment arr ii sz) := by
  unfold sdevTwo specDevSum specMean
  rw [sdevLoop_eq_fold, sumLoop_eq_fold, segment_length]

theorem aicEntry_eq_spec (log : Fp → Fp) (arr : Nat → Fp) (sz ii : Nat) :
    aicEntry log arr sz ii = specProfile log arr sz ii := by
  have h : rawAic log arr sz ii = specAic log arr sz ii := by
    unfold rawAic specAic valOne valTwo specPenalty promote
    rw [sdevOne_eq_spec, sdevTwo_eq_spec]
  unfold aicEntry specProfile
  rw [h]
  rcases specAic log arr sz ii with _ | a | ⟨a, m⟩ <;> rfl

/-- C5: for every split index i with 1 <= i <= n - 1, the profile entry at
position i - 1 is the value i * ln(devSumLead / i) + (n - i - 1) *
ln(devSumTrail / (n - i)) of the specification when that value is a finite
number, and positive infinity otherwise. -/
theorem aicp_entry_formula (log : Fp → Fp) (arr : Nat → Fp) (sz : Nat) (aic0 : Nat → Fp)
    (slot i : Nat) (h1 : 1 ≤ i) (h2 : i < sz) :
    (aicp log arr sz aic0 slot).aic (i - 1) = specProfile log arr sz i := by
  rw [aicp_aic_eq log arr sz aic0 slot (i - 1) (by omega), Nat.sub_add_cancel h1]
  exact aicEntry_eq_spec log arr sz i

/-- C5 instance: signal 0,1,3,2 and split 2. -/
theorem aicp_entry_formula_witness :
    1 ≤ 2 ∧ 2 < 4 ∧
      (aicp logApprox zigzag 4 (fun _ => zero) 0).aic (2 - 1) = specProfile logApprox zigzag 4 2 :=
  ⟨by decide, by decide, aicp_entry_formula logApprox zigzag 4 (fun _ => zero) 0 2 (by decide) (by decide)⟩

/-- C6: the call fills the n - 1 positions 0 .. n - 2 of the profile and no
other position; the filled positions and the pick index do not depend on what
the profile buffer and the index slot held before the call, so two calls on the
same signal deliver the same profile and the same pick index. -/
theorem aicp_overwrites_outputs (log : Fp → Fp) (arr : Nat → Fp) (sz : Nat)
    (aic1 aic2 : Nat → Fp) (slot1 slot2 : Nat) :
    (∀ j, j < sz - 1 →
        (aicp log arr sz aic1 slot1).aic j = (aicp log arr sz aic2 slot2).aic j) ∧
      (aicp log arr sz aic1 slot1).pminidx = (aicp log arr sz aic2 slot2).pminidx ∧
      (∀ j, sz - 1 ≤ j → (aicp log arr sz aic1 slot1).aic j = aic1 j) := by
  refine ⟨?_, ?_, ?_⟩
  · intro j hj
    rw [aicp_aic_eq log arr sz aic1 slot1 j hj, aicp_aic_eq log arr sz aic2 slot2 j hj]
  · exact (loopState_min_indep log arr sz aic1 aic2 (sz - 1)).1
  · intro j hj
    rw [aicp_aic, (aicp_inv log arr sz aic1).untouched j hj]
    simp [memsetZero, Nat.not_lt.mpr hj]

/-- C10: when every one of the n - 1 profile entries is positive infinity, the
pick index is 0. -/
theorem aicp_all_inf_pick_zero (log : Fp → Fp) (arr : Nat → Fp) (sz : Nat) (aic0 : Nat → Fp)
    (slot : Nat) (h : ∀ j, j < sz - 1 → (aicp log arr sz aic0 slot).aic j = INFINITY) :
    (aicp log arr sz aic0 slot).pminidx = 0 := by
  have inv := aicp_inv log arr sz aic0
  rcases inv.track with ⟨_, h2, _⟩ | ⟨h1, h2, h3⟩
  · exact h2
  · have hw := h _ h1
    rw [aicp_aic, inv.written _ h1, ← h2] at hw
    exact absurd hw h3

/-- C10 instance: the step signal 0,0,0,0,10,10,10,10, whose seven entries are
all positive infinity. -/
theorem aicp_all_inf_pick_zero_witness :
    (∀ j, j < 8 - 1 → (aicp logApprox stepSignal 8 (fun _ => zero) 0).aic j = INFINITY) ∧
      (aicp logApprox stepSignal 8 (fun _ => zero) 0).pminidx = 0 :=
  ⟨by decide!, aicp_all_inf_pick_zero logApprox stepSignal 8 (fun _ => zero) 0 (by decide!)⟩

/-- C11: aicp is a total function (every loop runs a number of iterations fixed
by sz) and the status it returns is 0 for every signal and every length. -/
theorem aicp_returns_zero (log : Fp → Fp) (arr : Nat → Fp) (sz : Nat) (aic0 : Nat → Fp)
    (slot : Nat) :
    ∃ r : Result, aicp log arr sz aic0 slot = r ∧ r.status = 0 :=
  ⟨aicp log arr sz aic0 slot, rfl, rfl⟩

/-- C12: recp leaves the profile buffer and the index slot exactly as they were
before the call; its only effect is the printed line. -/
theorem recp_leaves_outputs (arr : Nat → Fp) (sz : Nat) (aic0 : Nat → Fp) (slot : Nat) :
    (recp arr sz aic0 slot).aic = aic0 ∧ (recp arr sz aic0 slot).minidx = slot :=
  ⟨rfl, rfl⟩

/-- C15: for a signal of length 1 aicp writes no profile entry (the buffer is
returned as it was), stores pick index 0 and returns status 0. -/
theorem aicp_length_one (log : Fp → Fp) (arr : Nat → Fp) (aic0 : Nat → Fp) (slot : Nat) :
    (∀ j, (aicp log arr 1 aic0 slot).aic j = aic0 j) ∧
      (aicp log arr 1 aic0 slot).pminidx = 0 ∧
      (aicp log arr 1 aic0 slot).status = 0 := by
  refine ⟨?_, rfl, rfl⟩
  intro j
  show memsetZero aic0 0 j = aic0 j
  simp [memsetZero]

/-! ## Degenerate segments -/

theorem bits_zero : bits 0 = 0 := rfl

theorem roundNearestEven_zero (den : Nat) : roundNearestEven 0 den = 0 := by
  unfold roundNearestEven
  simp

theorem round_zero (f : Format) (s : Bool) (den : Nat) : f.round s 0 den = .fin s 0 := by
  unfold Format.round
  simp [roundNearestEven_zero]

theorem roundNearestEven_scale (m d c : Nat) (hc : 0 < c) :
    roundNearestEven (m * c) (d * c) = roundNearestEven m d := by
  unfold roundNearestEven
  have e1 : (2 * (m % d * c) < d * c) ↔ (2 * (m % d) < d) := by
    rw [← Nat.mul_assoc]; exact Nat.mul_lt_mul_right hc
  have e2 : (d * c < 2 * (m % d * c)) ↔ (d < 2 * (m % d)) := by
    rw [← Nat.mul_assoc]; exact Nat.mul_lt_mul_right hc
  simp only [Nat.mul_div_mul_right _ _ hc, Nat.mul_mod_mul_right, e1, e2]

theorem round_scale (f : Format) (s : Bool) (m c : Nat) (hc : 0 < c) :
    f.round s (m * c) c = f.round s m 1 := by
  unfold Format.round
  have h1 : m * c / c = m := Nat.mul_div_cancel m hc
  have h2 : ∀ t : Nat, roundNearestEven (m * c) (c * 2 ^ t) = roundNearestEven m (1 * 2 ^ t) := by
    intro t
    rw [Nat.mul_comm c (2 ^ t), Nat.one_mul]
    exact roundNearestEven_scale m (2 ^ t) c hc
  simp only [h1, Nat.div_one, h2]

theorem ofNat_cases (f : Format) (k : Nat) :
    (∃ m, f.ofNat k = .fin false m) ∨ f.ofNat k = .inf false := by
  unfold Format.ofNat Format.round
  dsimp only
  split
  · exact Or.inl ⟨_, rfl⟩
  · exact Or.inr rfl

theorem div_zero_ofNat (f g : Format) (x : Fp) (k : Nat) (hx : x.isZero = true ∨ x = .nan) :
    (f.div x (g.ofNat k)).isZero = true ∨ f.div x (g.ofNat k) = .nan := by
  rcases hx with hx | hx
  · rcases x with _ | a | ⟨a, m⟩
    · exact absurd hx Bool.false_ne_true
    · exact absurd hx Bool.false_ne_true
    · cases m with
      | zero =>
        rcases ofNat_cases g k with ⟨n, hn⟩ | hn
        · rw [hn]
          by_cases h0 : n = 0
          · right; simp [Format.div, h0]
          · left; simp [Format.div, h0, round_zero, Fp.isZero]
        · rw [hn]; left; rfl
      | succ m => exact absurd hx Bool.false_ne_true
  · subst hx
    right
    rcases ofNat_cases g k with ⟨n, hn⟩ | hn <;> rw [hn] <;> rfl

theorem log_degenerate {log : Fp → Fp} (hlog : AnnexF log) (x : Fp)
    (hx : x.isZero = true ∨ x = .nan) : log x = .inf true ∨ log x = .nan := by
  rcases hx with hx | hx
  · rcases x with _ | a | ⟨a, m⟩
    · exact absurd hx Bool.false_ne_true
    · exact absurd hx Bool.false_ne_true
    · cases m with
      | zero => exact Or.inl (hlog.zero a)
      | succ m => exact absurd hx Bool.false_ne_true
  · subst hx; exact Or.inr hlog.nan

theorem mul_ofNat_bad (f g : Format) (k : Nat) (y : Fp) (hy : y = .inf true ∨ y = .nan) :
    f.mul (g.ofNat k) y = .inf true ∨ f.mul (g.ofNat k) y = .nan := by
  rcases hy with hy | hy <;> subst hy
  · rcases ofNat_cases g k with ⟨n, hn⟩ | hn <;> rw [hn]
    · by_cases h0 : n = 0
      · right; simp [Format.mul, h0]
      · left; simp [Format.mul, h0]
    · left; rfl
  · right
    rcases ofNat_cases g k with ⟨n, hn⟩ | hn <;> rw [hn] <;> rfl

theorem convert_bad (f : Format) (y : Fp) (hy : y = .inf true ∨ y = .nan) :
    f.convert y = .inf true ∨ f.convert y = .nan := by
  rcases hy with hy | hy <;> subst hy
  · exact Or.inl rfl
  · exact Or.inr rfl

theorem add_bad_left (f : Format) (x y : Fp) (hx : x = .inf true ∨ x = .nan) :
    f.add x y = .inf true ∨ f.add x y = .nan := by
  rcases hx with hx | hx <;> subst hx
  · rcases y with _ | b | ⟨b, n⟩
    · exact Or.inr rfl
    · cases b
      · exact Or.inr rfl
      · exact Or.inl rfl
    · exact Or.inl rfl
  · rcases y with _ | b | ⟨b, n⟩ <;> exact Or.inr rfl

theorem add_bad_right (f : Format) (x y : Fp) (hy : y = .inf true ∨ y = .nan) :
    f.add x y = .inf true ∨ f.add x y = .nan := by
  rcases hy with hy | hy <;> subst hy
  · rcases x with _ | a | ⟨a, m⟩
    · exact Or.inr rfl
    · cases a
      · exact Or.inr rfl
      · exact Or.inl rfl
    · exact Or.inl rfl
  · rcases x with _ | a | ⟨a, m⟩ <;> exact Or.inr rfl

theorem sanitize_bad (x : Fp) (hx : x = .inf true ∨ x = .nan) : sanitize x = INFINITY := by
  rcases hx with hx | hx <;> subst hx <;> rfl

/-- A split at which one of the two computed deviation sums is zero or NaN
stores INFINITY. -/
theorem aicEntry_degenerate {log : Fp → Fp} (hlog : AnnexF log) (arr : Nat → Fp) (sz ii : Nat)
    (h : ((sdevOne arr ii).isZero = true ∨ sdevOne arr ii = .nan) ∨
      ((sdevTwo arr sz ii).isZero = true ∨ sdevTwo arr sz ii = .nan)) :
    aicEntry log arr sz ii = INFINITY := by
  unfold aicEntry rawAic
  apply sanitize_bad
  rcases h with h | h
  · apply add_bad_left
    unfold valOne promote
    exact convert_bad _ _ (mul_ofNat_bad _ _ _ _ (log_degenerate hlog _ (div_zero_ofNat _ _ _ _ h)))
  · apply add_bad_right
    unfold valTwo promote
    exact convert_bad _ _ (mul_ofNat_bad _ _ _ _ (log_degenerate hlog _ (div_zero_ofNat _ _ _ _ h)))

theorem logApprox_annexF : AnnexF logApprox := by
  refine ⟨?_, rfl, ?_, rfl, rfl⟩
  · intro s; simp [logApprox]
  · intro m hm
    have h0 : m ≠ 0 := Nat.pos_iff_ne_zero.mp hm
    simp [logApprox, h0]

theorem add_degenerate (s d : Fp) (hs : s = zero ∨ s = .nan)
    (hd : d.isZero = true ∨ d = .nan) :
    binary32.add s d = zero ∨ binary32.add s d = .nan := by
  rcases hs with hs | hs <;> subst hs
  · rcases hd with hd | hd
    · rcases d with _ | b | ⟨b, n⟩
      · exact absurd hd Bool.false_ne_true
      · exact absurd hd Bool.false_ne_true
      · cases n with
        | zero =>
          left
          cases b <;> simp [Format.add, zero, round_zero]
        | succ n => exact absurd hd Bool.false_ne_true
    · subst hd; exact Or.inr rfl
  · rcases d with _ | b | ⟨b, n⟩ <;> exact Or.inr rfl

theorem mul_self_degenerate (d : Fp) (hd : d.isZero = true ∨ d = .nan) :
    (binary32.mul d d).isZero = true ∨ binary32.mul d d = .nan := by
  rcases hd with hd | hd
  · rcases d with _ | b | ⟨b, n⟩
    · exact absurd hd Bool.false_ne_true
    · exact absurd hd Bool.false_ne_true
    · cases n with
      | zero => left; simp [Format.mul, round_zero, Fp.isZero]
      | succ n => exact absurd hd Bool.false_ne_true
  · subst hd; exact Or.inr rfl

theorem foldl_degenerate (g : Nat → Fp) (l : List Nat) (s : Fp) (hs : s = zero ∨ s = .nan)
    (hg : ∀ x, x ∈ l → (g x).isZero = true ∨ g x = .nan) :
    l.foldl (fun acc x => binary32.add acc (g x)) s = zero ∨
      l.foldl (fun acc x => binary32.add acc (g x)) s = .nan := by
  induction l generalizing s with
  | nil => exact hs
  | cons a l ih =>
    simp only [List.foldl_cons]
    exact ih _ (add_degenerate s (g a) hs (hg a (List.mem_cons_self a l)))
      (fun x hx => hg x (List.mem_cons_of_mem a hx))

/-- When every sample of arr[lo .. hi) differs from the mean by a zero or a
NaN, the accumulated deviation sum is +0.0 or NaN. -/
theorem sdevLoop_degenerate (arr : Nat → Fp) (lo hi : Nat) (mean : Fp)
    (h : ∀ x, lo ≤ x → x < hi →
      (binary32.sub (arr x) mean).isZero = true ∨ binary32.sub (arr x) mean = .nan) :
    (sdevLoop arr lo hi mean).isZero = true ∨ sdevLoop arr lo hi mean = .nan := by
  have key : sdevLoop arr lo hi mean = zero ∨ sdevLoop arr lo hi mean = .nan := by
    unfold sdevLoop forLoop
    apply foldl_degenerate
      (fun x => binary32.mul (binary32.sub (arr x) mean) (binary32.sub (arr x) mean))
    · exact Or.inl rfl
    · intro x hx
      rw [List.mem_range'_1] at hx
      exact mul_self_degenerate _ (h x hx.1 (by omega))
  rcases key with k | k
  · left; rw [k]; rfl
  · exact Or.inr k

theorem sub_self_degenerate (c : Fp) :
    (binary32.sub c c).isZero = true ∨ binary32.sub c c = .nan := by
  rcases c with _ | a | ⟨a, m⟩
  · exact Or.inr rfl
  · right; cases a <;> rfl
  · left; cases a <;> simp [Format.sub, Format.add, Fp.neg, Fp.isZero]

theorem ofNat_one : binary32.ofNat 1 = .fin false (2 ^ unitExp) := by
  decide!

theorem two_pow_unitExp_ne : (2 : Nat) ^ unitExp ≠ 0 :=
  Nat.pos_iff_ne_zero.mp (Nat.pow_pos (by decide))

/-- A single float sample differs from its own computed mean by a zero or a
NaN. -/
theorem single_dev (x : Fp) (hx : binary32.convert x = x) :
    (binary32.sub x (binary32.div (binary32.add zero x) (binary32.ofNat 1))).isZero = true ∨
      binary32.sub x (binary32.div (binary32.add zero x) (binary32.ofNat 1)) = .nan := by
  rw [ofNat_one]
  rcases x with _ | a | ⟨a, m⟩
  · exact Or.inr rfl
  · right; cases a <;> rfl
  · have hr : binary32.round a m 1 = .fin a m := hx
    left
    by_cases hm : m = 0
    · subst hm
      cases a <;>
        simp [Format.sub, Format.add, Format.div, Fp.neg, Fp.isZero, zero, round_zero,
          two_pow_unitExp_ne]
    · have hpos : 0 < m := Nat.pos_of_ne_zero hm
      have hsum : binary32.add zero (.fin a m) = .fin a m := by
        cases a
        · simp [Format.add, zero, hr]
        · simp [Format.add, zero, hpos, hr]
      rw [hsum]
      have hdiv : binary32.div (.fin a m) (.fin false (2 ^ unitExp)) = .fin a m := by
        simp only [Format.div, if_neg two_pow_unitExp_ne, Bool.xor_false]
        rw [round_scale _ _ _ _ (Nat.pos_of_ne_zero two_pow_unitExp_ne)]
        exact hr
      rw [hdiv]
      cases a <;> simp [Format.sub, Format.add, Fp.neg, Fp.isZero]

theorem sumLoop_single (arr : Nat → Fp) (lo : Nat) :
    sumLoop arr lo (lo + 1) = binary32.add zero (arr lo) := by
  simp [sumLoop, forLoop]

/-- A one-sample segment of floats has a computed deviation sum of +0.0 or NaN. -/
theorem sdevLoop_single (arr : Nat → Fp) (lo : Nat) (hx : binary32.convert (arr lo) = arr lo) :
    (sdevLoop arr lo (lo + 1)
        (binary32.div (sumLoop arr lo (lo + 1)) (binary32.ofNat 1))).isZero = true ∨
      sdevLoop arr lo (lo + 1)
        (binary32.div (sumLoop arr lo (lo + 1)) (binary32.ofNat 1)) = .nan := by
  apply sdevLoop_degenerate
  intro x h1 h2
  have hxlo : x = lo := by omega
  subst hxlo
  rw [sumLoop_single]
  exact single_dev _ hx

theorem aicEntry_first {log : Fp → Fp} (hlog : AnnexF log) (arr : Nat → Fp) (sz : Nat)
    (h0 : binary32.convert (arr 0) = arr 0) : aicEntry log arr sz 1 = INFINITY := by
  apply aicEntry_degenerate hlog
  left
  have h := sdevLoop_single arr 0 h0
  simpa [sdevOne] using h

theorem aicEntry_last {log : Fp → Fp} (hlog : AnnexF log) (arr : Nat → Fp) (n : Nat)
    (hn : binary32.convert (arr n) = arr n) : aicEntry log arr (n + 1) n = INFINITY := by
  apply aicEntry_degenerate hlog
  right
  have h := sdevLoop_single arr n hn
  simpa [sdevTwo] using h

theorem pick_zero_of_all_inf (log : Fp → Fp) (arr : Nat → Fp) (sz : Nat) (aic0 : Nat → Fp)
    (slot : Nat) (h : ∀ j, j < sz - 1 → aicEntry log arr sz (j + 1) = INFINITY) :
    (aicp log arr sz aic0 slot).pminidx = 0 := by
  rcases (aicp_inv log arr sz aic0).track with ⟨_, h2, _⟩ | ⟨h1, h2, h3⟩
  · exact h2
  · exact absurd (h2.trans (h _ h1)) h3

theorem sdevOne_degenerate (arr : Nat → Fp) (i : Nat)
    (hz : (sdevOne arr i).isZero = true ∨ (i = 1 ∧ binary32.convert (arr 0) = arr 0) ∨
      ∃ c, (∀ x, x < i → arr x = c) ∧
        binary32.div (sumLoop arr 0 i) (binary32.ofNat i) = c) :
    (sdevOne arr i).isZero = true ∨ sdevOne arr i = .nan := by
  rcases hz with h | ⟨hi, hf⟩ | ⟨c, hc, hm⟩
  · exact Or.inl h
  · subst hi
    have h := sdevLoop_single arr 0 hf
    simpa [sdevOne] using h
  · unfold sdevOne
    rw [hm]
    apply sdevLoop_degenerate
    intro x _ hx
    rw [hc x hx]
    exact sub_self_degenerate c

theorem sdevTwo_degenerate (arr : Nat → Fp) (sz i : Nat)
    (hz : (sdevTwo arr sz i).isZero = true ∨ (i + 1 = sz ∧ binary32.convert (arr i) = arr i) ∨
      ∃ c, (∀ x, x < sz → i ≤ x → arr x = c) ∧
        binary32.div (sumLoop arr i sz) (binary32.ofNat (sz - i)) = c) :
    (sdevTwo arr sz i).isZero = true ∨ sdevTwo arr sz i = .nan := by
  rcases hz with h | ⟨hi, hf⟩ | ⟨c, hc, hm⟩
  · exact Or.inl h
  · subst hi
    have h := sdevLoop_single arr i hf
    simpa [sdevTwo] using h
  · unfold sdevTwo
    rw [hm]
    apply sdevLoop_degenerate
    intro x hx1 hx2
    rw [hc x hx2 hx1]
    exact sub_self_degenerate c

/-- C7, on the code: in the signal of six samples 0.3f followed by 0,1,3,2,5,4
the leading segment at split 6 is constant-valued, yet its computed sum of
squared deviations is not zero and the profile entry at position 5 is not
positive infinity. -/
theorem flat_segment_finite_entry :
    (∀ x, x < 6 → flatThenRough x = threeTenths) ∧
      (sdevOne flatThenRough 6).isZero = false ∧
      ((aicp logApprox flatThenRough 12 (fun _ => zero) 0).aic 5).isfinite = true ∧
      (aicp logApprox flatThenRough 12 (fun _ => zero) 0).aic 5 ≠ INFINITY := by
  have e := aicp_aic_eq logApprox flatThenRough 12 (fun _ => zero) 0 5 (by decide)
  have hf : (aicEntry logApprox flatThenRough 12 (5 + 1)).isfinite = true := by decide!
  have hfin : ((aicp logApprox flatThenRough 12 (fun _ => zero) 0).aic 5).isfinite = true := by
    rw [e]; exact hf
  refine ⟨by decide!, by decide!, hfin, ?_⟩
  intro h
  rw [h] at hfin
  exact absurd hfin Bool.false_ne_true

/-- C7, amended: at a split i of a signal of float samples where the leading or
the trailing segment either has a computed sum of squared deviations equal to
zero, or is a single sample, or is constant-valued with a computed mean equal
to the common value, the profile entry at position i - 1 is positive infinity
(log follows Annex F). -/
theorem aicp_degenerate_segment_inf (log : Fp → Fp) (hlog : AnnexF log) (arr : Nat → Fp)
    (sz : Nat) (aic0 : Nat → Fp) (slot i : Nat) (h1 : 1 ≤ i) (h2 : i < sz)
    (hz : ((sdevOne arr i).isZero = true ∨ (i = 1 ∧ binary32.convert (arr 0) = arr 0) ∨
          ∃ c, (∀ x, x < i → arr x = c) ∧
            binary32.div (sumLoop arr 0 i) (binary32.ofNat i) = c) ∨
        ((sdevTwo arr sz i).isZero = true ∨ (i + 1 = sz ∧ binary32.convert (arr i) = arr i) ∨
          ∃ c, (∀ x, x < sz → i ≤ x → arr x = c) ∧
            binary32.div (sumLoop arr i sz) (binary32.ofNat (sz - i)) = c)) :
    (aicp log arr sz aic0 slot).aic (i - 1) = INFINITY := by
  rw [aicp_aic_eq log arr sz aic0 slot (i - 1) (by omega), Nat.sub_add_cancel h1]
  exact aicEntry_degenerate hlog arr sz i
    (hz.elim (fun h => Or.inl (sdevOne_degenerate arr i h))
      (fun h => Or.inr (sdevTwo_degenerate arr sz i h)))

/-- C7 amended, instance: the step signal 0,0,0,0,10,10,10,10 at split 5, where
the trailing segment is three samples 10.0 whose computed mean is 10.0. -/
theorem aicp_degenerate_segment_inf_witness :
    AnnexF logApprox ∧ 1 ≤ 5 ∧ 5 < 8 ∧
      ((∀ x, x < 8 → 5 ≤ x → stepSignal x = ten) ∧
        binary32.div (sumLoop stepSignal 5 8) (binary32.ofNat (8 - 5)) = ten) ∧
      (aicp logApprox stepSignal 8 (fun _ => zero) 0).aic (5 - 1) = INFINITY :=
  ⟨logApprox_annexF, by decide, by decide,
    ⟨by decide!, by decide!⟩,
    aicp_degenerate_segment_inf logApprox logApprox_annexF stepSignal 8 (fun _ => zero) 0 5
      (by decide) (by decide)
      (Or.inr (Or.inr (Or.inr ⟨ten, by decide!, by decide!⟩)))⟩

/-- C13: for a signal of n >= 2 float samples the first profile entry and the
last profile entry are both positive infinity (log follows Annex F). -/
theorem aicp_first_last_inf (log : Fp → Fp) (hlog : AnnexF log) (arr : Nat → Fp) (sz : Nat)
    (aic0 : Nat → Fp) (slot : Nat) (hsz : 2 ≤ sz)
    (hfl : ∀ j, j < sz → binary32.convert (arr j) = arr j) :
    (aicp log arr sz aic0 slot).aic 0 = INFINITY ∧
      (aicp log arr sz aic0 slot).aic (sz - 2) = INFINITY := by
  obtain ⟨n, rfl⟩ : ∃ n, sz = n + 2 := ⟨sz - 2, by omega⟩
  constructor
  · rw [aicp_aic_eq log arr (n + 2) aic0 slot 0 (by omega)]
    exact aicEntry_first hlog arr (n + 2) (hfl 0 (by omega))
  · rw [aicp_aic_eq log arr (n + 2) aic0 slot (n + 2 - 2) (by omega)]
    exact aicEntry_last hlog arr (n + 1) (hfl (n + 1) (by omega))

/-- C13 instance: signal 0,1,3,2. -/
theorem aicp_first_last_inf_witness :
    AnnexF logApprox ∧ 2 ≤ 4 ∧ (∀ j, j < 4 → binary32.convert (zigzag j) = zigzag j) ∧
      ((aicp logApprox zigzag 4 (fun _ => zero) 0).aic 0 = INFINITY ∧
        (aicp logApprox zigzag 4 (fun _ => zero) 0).aic (4 - 2) = INFINITY) :=
  ⟨logApprox_annexF, by decide, by decide!,
    aicp_first_last_inf logApprox logApprox_annexF zigzag 4 (fun _ => zero) 0 (by decide)
      (by decide!)⟩

/-- C14: for a signal of n >= 2 float samples, pick index 0 means that every
profile entry is positive infinity; a finite profile entry forces
1 <= pick index <= n - 3; and for n <= 3 the pick index is 0 (log follows
Annex F). -/
theorem aicp_pick_zero_iff (log : Fp → Fp) (hlog : AnnexF log) (arr : Nat → Fp) (sz : Nat)
    (aic0 : Nat → Fp) (slot : Nat) (hsz : 2 ≤ sz)
    (hfl : ∀ j, j < sz → binary32.convert (arr j) = arr j) :
    ((aicp log arr sz aic0 slot).pminidx = 0 →
        ∀ j, j < sz - 1 → (aicp log arr sz aic0 slot).aic j = INFINITY) ∧
      ((∃ j, j < sz - 1 ∧ ((aicp log arr sz aic0 slot).aic j).isfinite = true) →
        1 ≤ (aicp log arr sz aic0 slot).pminidx ∧
          (aicp log arr sz aic0 slot).pminidx ≤ sz - 3) ∧
      (sz ≤ 3 → (aicp log arr sz aic0 slot).pminidx = 0) := by
  obtain ⟨n, rfl⟩ : ∃ n, sz = n + 2 := ⟨sz - 2, by omega⟩
  have inv := aicp_inv log arr (n + 2) aic0
  have hfirst := aicEntry_first hlog arr (n + 2) (hfl 0 (by omega))
  have hlast := aicEntry_last hlog arr (n + 1) (hfl (n + 1) (by omega))
  have key : ((aicp log arr (n + 2) aic0 slot).pminidx = 0 ∧
        ∀ j, j < n + 2 - 1 → aicEntry log arr (n + 2) (j + 1) = INFINITY) ∨
      (1 ≤ (aicp log arr (n + 2) aic0 slot).pminidx ∧
        (aicp log arr (n + 2) aic0 slot).pminidx + 3 ≤ n + 2) := by
    rw [aicp_pminidx]
    rcases inv.track with ⟨_, h2, h3⟩ | ⟨h1, h2, h3⟩
    · exact Or.inl ⟨h2, h3⟩
    · right
      have hne : aicEntry log arr (n + 2)
          ((loopState log arr (n + 2) aic0 (n + 2 - 1)).minidx + 1) ≠ INFINITY := by
        rw [← h2]; exact h3
      have hn1 : (loopState log arr (n + 2) aic0 (n + 2 - 1)).minidx ≠ 0 := by
        intro h0; rw [h0] at hne; exact hne hfirst
      have hn2 : (loopState log arr (n + 2) aic0 (n + 2 - 1)).minidx ≠ n := by
        intro h0; rw [h0] at hne; exact hne hlast
      omega
  refine ⟨?_, ?_, ?_⟩
  · intro hp j hj
    rcases key with ⟨_, h⟩ | ⟨h, _⟩
    · rw [aicp_aic_eq log arr (n + 2) aic0 slot j hj]; exact h j hj
    · omega
  · rintro ⟨j, hj, hf⟩
    rcases key with ⟨_, h⟩ | ⟨h3, h4⟩
    · rw [aicp_aic_eq log arr (n + 2) aic0 slot j hj, h j hj] at hf
      exact absurd hf Bool.false_ne_true
    · exact ⟨h3, by omega⟩
  · intro h3
    rcases key with ⟨h, _⟩ | ⟨_, _⟩
    · exact h
    · omega

/-- C14 instance: signal 0,1,3,2, whose pick index is 1. -/
theorem aicp_pick_zero_iff_witness :
    AnnexF logApprox ∧ 2 ≤ 4 ∧ (∀ j, j < 4 → binary32.convert (zigzag j) = zigzag j) ∧
      (((aicp logApprox zigzag 4 (fun _ => zero) 0).pminidx = 0 →
        ∀ j, j < 4 - 1 → (aicp logApprox zigzag 4 (fun _ => zero) 0).aic j = INFINITY) ∧
      ((∃ j, j < 4 - 1 ∧ ((aicp logApprox zigzag 4 (fun _ => zero) 0).aic j).isfinite = true) →
        1 ≤ (aicp logApprox zigzag 4 (fun _ => zero) 0).pminidx ∧
          (aicp logApprox zigzag 4 (fun _ => zero) 0).pminidx ≤ 4 - 3) ∧
      (4 ≤ 3 → (aicp logApprox zigzag 4 (fun _ => zero) 0).pminidx = 0)) :=
  ⟨logApprox_annexF, by decide, by decide!,
    aicp_pick_zero_iff logApprox logApprox_annexF zigzag 4 (fun _ => zero) 0 (by decide)
      (by decide!)⟩

/-! ## Constant signals and the step signal -/

theorem sdevLoop_const (c : Fp) (lo hi : Nat) :
    (sdevLoop (constSignal c) lo hi c).isZero = true ∨ sdevLoop (constSignal c) lo hi c = .nan :=
  sdevLoop_degenerate (constSignal c) lo hi c (fun _ _ _ => sub_self_degenerate c)

theorem const_entries {log : Fp → Fp} (hlog : AnnexF log) (c : Fp) (sz : Nat)
    (hmean : ∀ j, j < sz - 1 →
      binary32.div (sumLoop (constSignal c) 0 (j + 1)) (binary32.ofNat (j + 1)) = c ∨
        binary32.div (sumLoop (constSignal c) (j + 1) sz) (binary32.ofNat (sz - (j + 1))) = c)
    (j : Nat) (hj : j < sz - 1) : aicEntry log (constSignal c) sz (j + 1) = INFINITY := by
  apply aicEntry_degenerate hlog
  rcases hmean j hj with h | h
  · left
    unfold sdevOne
    rw [h]
    exact sdevLoop_const c 0 (j + 1)
  · right
    unfold sdevTwo
    rw [h]
    exact sdevLoop_const c (j + 1) sz

/-- C8, on the code: for the constant signal of twelve samples 0.3f the two
computed deviation sums at split 6 are not zero, the entry at position 5 is
not positive infinity, and so the claim fails. -/
theorem const_three_tenths_finite_entry :
    (sdevOne (constSignal threeTenths) 6).isZero = false ∧
      (sdevTwo (constSignal threeTenths) 12 6).isZero = false ∧
      ¬ ((∀ j, j < 12 - 1 →
            (aicp logApprox (constSignal threeTenths) 12 (fun _ => zero) 0).aic j = INFINITY) ∧
          (aicp logApprox (constSignal threeTenths) 12 (fun _ => zero) 0).pminidx = 0) := by
  refine ⟨by decide!, by decide!, ?_⟩
  intro h
  have h5 := h.1 5 (by decide)
  rw [aicp_aic_eq logApprox (constSignal threeTenths) 12 (fun _ => zero) 0 5 (by decide)] at h5
  have hne : aicEntry logApprox (constSignal threeTenths) 12 (5 + 1) ≠ INFINITY := by decide!
  exact hne h5

/-- C8, amended: for a signal of n >= 2 samples all equal to one value c such
that at every split the computed mean of the leading segment or of the
trailing segment is exactly c, every profile entry is positive infinity and
the pick index is 0 (log follows Annex F). -/
theorem aicp_constant_exact_mean (log : Fp → Fp) (hlog : AnnexF log) (c : Fp) (sz : Nat)
    (aic0 : Nat → Fp) (slot : Nat) (hsz : 2 ≤ sz)
    (hmean : ∀ j, j < sz - 1 →
      binary32.div (sumLoop (constSignal c) 0 (j + 1)) (binary32.ofNat (j + 1)) = c ∨
        binary32.div (sumLoop (constSignal c) (j + 1) sz) (binary32.ofNat (sz - (j + 1))) = c) :
    (∀ j, j < sz - 1 → (aicp log (constSignal c) sz aic0 slot).aic j = INFINITY) ∧
      (aicp log (constSignal c) sz aic0 slot).pminidx = 0 := by
  have hall := const_entries hlog c sz hmean
  have _ := hsz
  constructor
  · intro j hj
    rw [aicp_aic_eq log (constSignal c) sz aic0 slot j hj]
    exact hall j hj
  · exact pick_zero_of_all_inf log (constSignal c) sz aic0 slot hall

/-- C8 amended, instance: eight samples 10.0. -/
theorem aicp_constant_exact_mean_witness :
    AnnexF logApprox ∧ 2 ≤ 8 ∧
      (∀ j, j < 8 - 1 →
        binary32.div (sumLoop (constSignal ten) 0 (j + 1)) (binary32.ofNat (j + 1)) = ten ∨
          binary32.div (sumLoop (constSignal ten) (j + 1) 8) (binary32.ofNat (8 - (j + 1))) = ten) ∧
      ((∀ j, j < 8 - 1 → (aicp logApprox (constSignal ten) 8 (fun _ => zero) 0).aic j = INFINITY) ∧
        (aicp logApprox (constSignal ten) 8 (fun _ => zero) 0).pminidx = 0) :=
  ⟨logApprox_annexF, by decide, by decide!,
    aicp_constant_exact_mean logApprox logApprox_annexF ten 8 (fun _ => zero) 0 (by decide)
      (by decide!)⟩

theorem stepSignal_degenerate :
    ∀ j, j < 7 →
      (sdevOne stepSignal (j + 1)).isZero = true ∨ (sdevTwo stepSignal 8 (j + 1)).isZero = true := by
  decide!

theorem stepSignal_entries {log : Fp → Fp} (hlog : AnnexF log) (j : Nat) (hj : j < 7) :
    aicEntry log stepSignal 8 (j + 1) = INFINITY :=
  aicEntry_degenerate hlog stepSignal 8 (j + 1)
    ((stepSignal_degenerate j hj).elim (fun h => Or.inl (Or.inl h)) (fun h => Or.inr (Or.inl h)))

/-- C9, on the code: for the step signal 0,0,0,0,10,10,10,10 no profile
position holds a finite value, whatever logarithm following Annex F is used. -/
theorem step_signal_no_finite_entry :
    ¬ ∃ log : Fp → Fp, AnnexF log ∧
      ∃ j, j < 7 ∧ ((aicp log stepSignal 8 (fun _ => zero) 0).aic j).isfinite = true := by
  rintro ⟨log, hlog, j, hj, hf⟩
  rw [aicp_aic_eq log stepSignal 8 (fun _ => zero) 0 j hj, stepSignal_entries hlog j hj] at hf
  exact absurd hf Bool.false_ne_true

/-- C9, amended: for the step signal 0,0,0,0,10,10,10,10 (n = 8) the profile
entry is positive infinity at every split 1 .. 7, that is at every profile
position 0 .. 6 (log follows Annex F). -/
theorem step_signal_all_inf (log : Fp → Fp) (hlog : AnnexF log) (aic0 : Nat → Fp)
    (slot j : Nat) (hj : j < 7) :
    (aicp log stepSignal 8 aic0 slot).aic j = INFINITY := by
  rw [aicp_aic_eq log stepSignal 8 aic0 slot j hj]
  exact stepSignal_entries hlog j hj

/-- C9 amended, instance: profile position 1. -/
theorem step_signal_all_inf_witness :
    AnnexF logApprox ∧ 1 < 7 ∧ (aicp logApprox stepSignal 8 (fun _ => zero) 0).aic 1 = INFINITY :=
  ⟨logApprox_annexF, by decide,
    step_signal_all_inf logApprox logApprox_annexF (fun _ => zero) 0 1 (by decide)⟩

/-! ## Gain invariance in exact arithmetic -/

namespace Exact

theorem ex_foldl_add {K : Type} [LinearOrderedField K] (g : Nat → K) (l : List Nat) (s : K) :
    l.foldl (fun acc x => add acc (Val.num (g x))) (Val.num s) =
      Val.num (l.foldl (fun acc x => acc + g x) s) := by
  induction l generalizing s with
  | nil => rfl
  | cons a l ih =>
    simp only [List.foldl_cons]
    exact ih (s + g a)

theorem ex_sumLoop {K : Type} [LinearOrderedField K] (sig : Nat → K) (lo hi : Nat) :
    sumLoop (embed sig) lo hi = .num (sumK sig lo hi) := by
  unfold sumLoop sumK forLoop embed
  exact ex_foldl_add sig _ 0

theorem ex_sdevLoop {K : Type} [LinearOrderedField K] (sig : Nat → K) (lo hi : Nat) (m : K) :
    sdevLoop (embed sig) lo hi (.num m) = .num (sdevK sig lo hi m) := by
  unfold sdevLoop sdevK forLoop embed
  have h : ∀ x, mul (sub (Val.num (sig x)) (.num m)) (sub (.num (sig x)) (.num m)) =
      .num ((sig x - m) * (sig x - m)) := by
    intro x
    simp [sub, add, mul, Val.neg, sub_eq_add_neg]
  simp only [h]
  exact ex_foldl_add (fun x => (sig x - m) * (sig x - m)) _ 0

theorem ex_div_ofNat {K : Type} [LinearOrderedField K] (s : K) (n : Nat) (hn : n ≠ 0) :
    div (Val.num s) (ofNat n) = .num (s / (n : K)) := by
  have h : (n : K) ≠ 0 := Nat.cast_ne_zero.mpr hn
  simp [div, ofNat, h]

theorem ex_sdevOne {K : Type} [LinearOrderedField K] (sig : Nat → K) (ii : Nat) (h : 1 ≤ ii) :
    sdevOne (embed sig) ii = .num (devK sig 0 ii) := by
  unfold sdevOne devK
  rw [ex_sumLoop, ex_div_ofNat _ _ (by omega), ex_sdevLoop, Nat.sub_zero]

theorem ex_sdevTwo {K : Type} [LinearOrderedField K] (sig : Nat → K) (sz ii : Nat) (h : ii < sz) :
    sdevTwo (embed sig) sz ii = .num (devK sig ii sz) := by
  unfold sdevTwo devK
  rw [ex_sumLoop, ex_div_ofNat _ _ (by omega), ex_sdevLoop]

theorem ex_foldl_nonneg {K : Type} [LinearOrderedField K] (f : Nat → K) (hf : ∀ x, 0 ≤ f x)
    (l : List Nat) (s : K) (hs : 0 ≤ s) : 0 ≤ l.foldl (fun acc x => acc + f x) s := by
  induction l generalizing s with
  | nil => exact hs
  | cons a l ih =>
    simp only [List.foldl_cons]
    exact ih _ (add_nonneg hs (hf a))

theorem ex_devK_nonneg {K : Type} [LinearOrderedField K] (sig : Nat → K) (lo hi : Nat) :
    0 ≤ devK sig lo hi := by
  unfold devK sdevK forLoop
  exact ex_foldl_nonneg _ (fun x => mul_self_nonneg _) _ 0 (le_refl 0)

theorem ex_foldl_mul {K : Type} [LinearOrderedField K] (c : K) (f : Nat → K) (l : List Nat)
    (s : K) :
    l.foldl (fun acc x => acc + c * f x) (c * s) = c * l.foldl (fun acc x => acc + f x) s := by
  induction l generalizing s with
  | nil => rfl
  | cons a l ih =>
    simp only [List.foldl_cons]
    rw [← mul_add]
    exact ih (s + f a)

theorem ex_sumK_scale {K : Type} [LinearOrderedField K] (g : K) (sig : Nat → K) (lo hi : Nat) :
    sumK (scale g sig) lo hi = g * sumK sig lo hi := by
  unfold sumK forLoop scale
  have h := ex_foldl_mul g sig (List.range' lo (hi - lo)) 0
  rw [mul_zero] at h
  exact h

theorem ex_sdevK_scale {K : Type} [LinearOrderedField K] (g : K) (sig : Nat → K) (lo hi : Nat)
    (m : K) : sdevK (scale g sig) lo hi (g * m) = g ^ 2 * sdevK sig lo hi m := by
  unfold sdevK forLoop scale
  have h := ex_foldl_mul (g ^ 2) (fun x => (sig x - m) * (sig x - m)) (List.range' lo (hi - lo)) 0
  rw [mul_zero] at h
  rw [← h]
  congr 1
  funext acc x
  ring

theorem ex_devK_scale {K : Type} [LinearOrderedField K] (g : K) (sig : Nat → K) (lo hi : Nat) :
    devK (scale g sig) lo hi = g ^ 2 * devK sig lo hi := by
  unfold devK
  rw [ex_sumK_scale, mul_div_assoc, ex_sdevK_scale]

theorem ex_sanitize_add_left {K : Type} [LinearOrderedField K] (x y : Val K)
    (hx : x = .inf true ∨ x = .nan) : sanitize (add x y) = INFINITY := by
  rcases hx with hx | hx <;> subst hx
  · rcases y with _ | b | y
    · rfl
    · cases b <;> rfl
    · rfl
  · rcases y with _ | b | y <;> rfl

theorem ex_sanitize_add_right {K : Type} [LinearOrderedField K] (x y : Val K)
    (hy : y = .inf true ∨ y = .nan) : sanitize (add x y) = INFINITY := by
  rcases hy with hy | hy <;> subst hy
  · rcases x with _ | a | x
    · rfl
    · cases a <;> rfl
    · rfl
  · rcases x with _ | a | x <;> rfl

theorem ex_penalty {K : Type} [LinearOrderedField K] (ln : K → K) (mult len : Nat)
    (hlen : len ≠ 0) (D : K) (hD : 0 ≤ D) :
    (D = 0 →
        (mul (ofNat mult) (log ln (div (.num D) (ofNat len))) = .inf true ∨
          mul (ofNat mult) (log ln (div (.num D) (ofNat len))) = .nan)) ∧
      (D ≠ 0 →
        mul (ofNat mult) (log ln (div (.num D) (ofNat len))) =
          .num ((mult : K) * ln (D / (len : K)))) := by
  rw [ex_div_ofNat _ _ hlen]
  have hl : (0 : K) < (len : K) := Nat.cast_pos.mpr (Nat.pos_of_ne_zero hlen)
  have hnn : ¬ ((mult : K) < 0) := not_lt.mpr (Nat.cast_nonneg mult)
  constructor
  · intro h0
    subst h0
    by_cases hm : (mult : K) = 0
    · right; simp [log, mul, ofNat, hm]
    · left; simp [log, mul, ofNat, hm, hnn]
  · intro h0
    have hq : D / (len : K) ≠ 0 := div_ne_zero h0 hl.ne.symm
    have hq2 : ¬ (D / (len : K) < 0) := not_lt.mpr (div_nonneg hD hl.le)
    simp [log, mul, ofNat, hq, hq2]

/-- Closed form of a profile entry in exact arithmetic. -/
theorem ex_entry {K : Type} [LinearOrderedField K] (ln : K → K) (sig : Nat → K) (sz ii : Nat)
    (h1 : 1 ≤ ii) (h2 : ii < sz) :
    ((devK sig 0 ii = 0 ∨ devK sig ii sz = 0) → aicEntry ln (embed sig) sz ii = INFINITY) ∧
      (devK sig 0 ii ≠ 0 → devK sig ii sz ≠ 0 →
        aicEntry ln (embed sig) sz ii =
          .num ((ii : K) * ln (devK sig 0 ii / (ii : K)) +
            ((sz - ii - 1 : Nat) : K) * ln (devK sig ii sz / ((sz - ii : Nat) : K)))) := by
  unfold aicEntry rawAic valOne valTwo
  rw [ex_sdevOne _ _ h1, ex_sdevTwo _ _ _ h2]
  obtain ⟨a0, a1⟩ := ex_penalty ln ii ii (by omega) _ (ex_devK_nonneg sig 0 ii)
  obtain ⟨b0, b1⟩ := ex_penalty ln (sz - ii - 1) (sz - ii) (by omega) _ (ex_devK_nonneg sig ii sz)
  constructor
  · rintro (h | h)
    · exact ex_sanitize_add_left _ _ (a0 h)
    · exact ex_sanitize_add_right _ _ (b0 h)
  · intro ha hb
    rw [a1 ha, b1 hb]
    rfl

/-- Effect of the gain g on one profile entry. -/
theorem ex_entry_scale {K : Type} [LinearOrderedField K] (ln : K → K)
    (hln : ∀ x y : K, 0 < x → 0 < y → ln (x * y) = ln x + ln y) (sig : Nat → K) (g : K)
    (hg : g ≠ 0) (sz ii : Nat) (h1 : 1 ≤ ii) (h2 : ii < sz) :
    aicEntry ln (embed (scale g sig)) sz ii =
      shift (((sz - 1 : Nat) : K) * ln (g ^ 2)) (aicEntry ln (embed sig) sz ii) := by
  have hg2 : (0 : K) < g ^ 2 := by positivity
  obtain ⟨p0, p1⟩ := ex_entry ln sig sz ii h1 h2
  obtain ⟨q0, q1⟩ := ex_entry ln (scale g sig) sz ii h1 h2
  rw [ex_devK_scale, ex_devK_scale] at q0 q1
  by_cases hz : devK sig 0 ii = 0 ∨ devK sig ii sz = 0
  · rw [p0 hz]
    have hz2 : g ^ 2 * devK sig 0 ii = 0 ∨ g ^ 2 * devK sig ii sz = 0 := by
      rcases hz with h | h
      · left; rw [h, mul_zero]
      · right; rw [h, mul_zero]
    rw [q0 hz2]
    rfl
  · have ha : devK sig 0 ii ≠ 0 := fun h => hz (Or.inl h)
    have hb : devK sig ii sz ≠ 0 := fun h => hz (Or.inr h)
    have hapos : 0 < devK sig 0 ii := lt_of_le_of_ne (ex_devK_nonneg sig 0 ii) (Ne.symm ha)
    have hbpos : 0 < devK sig ii sz := lt_of_le_of_ne (ex_devK_nonneg sig ii sz) (Ne.symm hb)
    have hi : (0 : K) < (ii : K) := Nat.cast_pos.mpr (by omega)
    have hl : (0 : K) < ((sz - ii : Nat) : K) := Nat.cast_pos.mpr (by omega)
    rw [p1 ha hb, q1 (mul_ne_zero hg2.ne.symm ha) (mul_ne_zero hg2.ne.symm hb)]
    rw [mul_div_assoc, mul_div_assoc, hln _ _ hg2 (div_pos hapos hi),
      hln _ _ hg2 (div_pos hbpos hl)]
    have hsum : ((sz - 1 : Nat) : K) = (ii : K) + ((sz - ii - 1 : Nat) : K) := by
      rw [← Nat.cast_add]
      congr 1
      omega
    show Val.num _ = Val.num _
    rw [hsum]
    congr 1
    ring

theorem ex_write_same {K : Type} (m : Nat → Val K) (k : Nat) (v : Val K) :
    write m k v k = v := by
  simp [write]

theorem ex_write_write {K : Type} (m : Nat → Val K) (k : Nat) (v w : Val K) :
    write (write m k v) k w = write m k w := by
  funext j
  by_cases h : j = k <;> simp [write, h]

theorem ex_aicpStep_eq {K : Type} [LinearOrderedField K] (ln : K → K) (arr : Nat → Val K)
    (sz ii : Nat) (st : State K) :
    aicpStep ln arr sz ii st =
      if (aicEntry ln arr sz ii).lt st.minval = true then
        { aic := write st.aic (ii - 1) (aicEntry ln arr sz ii), minidx := ii - 1,
          minval := aicEntry ln arr sz ii }
      else
        { aic := write st.aic (ii - 1) (aicEntry ln arr sz ii), minidx := st.minidx,
          minval := st.minval } := by
  unfold aicpStep aicEntry
  generalize rawAic ln arr sz ii = r
  rcases r with _ | a | x <;>
    simp [sanitize, ex_write_same, ex_write_write, Val.isinf, Val.isnan, INFINITY]

theorem ex_loopState_succ {K : Type} [LinearOrderedField K] (ln : K → K) (arr : Nat → Val K)
    (sz : Nat) (aic : Nat → Val K) (k : Nat) :
    loopState ln arr sz aic (k + 1) = aicpStep ln arr sz (k + 1) (loopState ln arr sz aic k) := by
  unfold loopState
  rw [List.range'_concat, List.foldl_append]
  simp [Nat.add_comm]

theorem ex_written {K : Type} [LinearOrderedField K] (ln : K → K) (arr : Nat → Val K)
    (sz : Nat) (aic : Nat → Val K) (k j : Nat) (hj : j < k) :
    (loopState ln arr sz aic k).aic j = aicEntry ln arr sz (j + 1) := by
  induction k with
  | zero => omega
  | succ k ih =>
    rw [ex_loopState_succ, ex_aicpStep_eq]
    have hw : write (loopState ln arr sz aic k).aic (k + 1 - 1) (aicEntry ln arr sz (k + 1)) j =
        aicEntry ln arr sz (j + 1) := by
      by_cases hjk : j = k
      · subst hjk; simp [write]
      · have hne : j ≠ k + 1 - 1 := by omega
        simp only [write, if_neg hne]
        exact ih (by omega)
    by_cases h : (aicEntry ln arr sz (k + 1)).lt (loopState ln arr sz aic k).minval = true
    · rw [if_pos h]; exact hw
    · rw [if_neg h]; exact hw

theorem ex_shift_lt {K : Type} [LinearOrderedField K] (c : K) (a b : Val K) :
    (shift c a).lt (shift c b) = a.lt b := by
  rcases a with _ | a | x <;> rcases b with _ | b | y
  all_goals (try cases a) <;> (try cases b)
  all_goals simp [shift, Val.lt]

/-- Two runs whose entries differ by the shift c keep the same index and
running minima that differ by the shift c. -/
theorem ex_loop_rel {K : Type} [LinearOrderedField K] (ln : K → K) (arr arr2 : Nat → Val K)
    (sz : Nat) (a1 a2 : Nat → Val K) (c : K)
    (hent : ∀ i, 1 ≤ i → i < sz → aicEntry ln arr2 sz i = shift c (aicEntry ln arr sz i))
    (k : Nat) (hk : k ≤ sz - 1) :
    (loopState ln arr2 sz a2 k).minidx = (loopState ln arr sz a1 k).minidx ∧
      (loopState ln arr2 sz a2 k).minval = shift c (loopState ln arr sz a1 k).minval := by
  induction k with
  | zero => exact ⟨rfl, rfl⟩
  | succ k ih =>
    obtain ⟨i1, i2⟩ := ih (by omega)
    rw [ex_loopState_succ, ex_loopState_succ, ex_aicpStep_eq, ex_aicpStep_eq,
      hent (k + 1) (by omega) (by omega), i2, ex_shift_lt]
    by_cases h : (aicEntry ln arr sz (k + 1)).lt (loopState ln arr sz a1 k).minval = true
    · rw [if_pos h, if_pos h]; exact ⟨rfl, rfl⟩
    · rw [if_neg h, if_neg h]; exact ⟨i1, rfl⟩

theorem ex_shift_sanitize {K : Type} [LinearOrderedField K] (c : K) (v : Val K) :
    (shift c (sanitize v) = INFINITY ↔ sanitize v = INFINITY) ∧
      ∀ x, sanitize v = .num x → shift c (sanitize v) = .num (x + c) := by
  rcases v with _ | a | x
  · exact ⟨Iff.rfl, fun x h => by cases h⟩
  · exact ⟨Iff.rfl, fun x h => by cases h⟩
  · constructor
    · constructor
      · intro h; cases h
      · intro h; cases h
    · intro y h
      cases h
      rfl

/-- C16: in exact arithmetic over an ordered field with a logarithm ln that
turns products of positive numbers into sums, multiplying every sample by a
gain g different from zero leaves the pick index unchanged, leaves the set of
positive-infinity positions unchanged, and moves every finite profile entry by
(n - 1) * ln(g^2). -/
theorem aicp_gain_invariance {K : Type} [LinearOrderedField K] (ln : K → K)
    (hln : ∀ x y : K, 0 < x → 0 < y → ln (x * y) = ln x + ln y) (sig : Nat → K) (sz : Nat)
    (g : K) (hg : g ≠ 0) (aic1 aic2 : Nat → Val K) (slot1 slot2 : Nat) :
    (aicp ln (embed (scale g sig)) sz aic2 slot2).pminidx =
        (aicp ln (embed sig) sz aic1 slot1).pminidx ∧
      ∀ j, j < sz - 1 →
        (((aicp ln (embed (scale g sig)) sz aic2 slot2).aic j = INFINITY ↔
            (aicp ln (embed sig) sz aic1 slot1).aic j = INFINITY) ∧
          ∀ x, (aicp ln (embed sig) sz aic1 slot1).aic j = .num x →
            (aicp ln (embed (scale g sig)) sz aic2 slot2).aic j =
              .num (x + ((sz - 1 : Nat) : K) * ln (g ^ 2))) := by
  have hent := fun i h1 h2 => ex_entry_scale ln hln sig g hg sz i h1 h2
  constructor
  · exact (ex_loop_rel ln (embed sig) (embed (scale g sig)) sz aic1 aic2 _ hent (sz - 1)
      (le_refl _)).1
  · intro j hj
    have e1 : (aicp ln (embed sig) sz aic1 slot1).aic j = aicEntry ln (embed sig) sz (j + 1) :=
      ex_written ln (embed sig) sz aic1 (sz - 1) j hj
    have e2 : (aicp ln (embed (scale g sig)) sz aic2 slot2).aic j =
        aicEntry ln (embed (scale g sig)) sz (j + 1) :=
      ex_written ln (embed (scale g sig)) sz aic2 (sz - 1) j hj
    rw [e1, e2, hent (j + 1) (by omega) (by omega)]
    exact ex_shift_sanitize _ _

/-- C16 instance: the real numbers with the natural logarithm, the signal
0,1,2,3 and the gain 2. -/
theorem aicp_gain_invariance_witness :
    (∀ x y : ℝ, 0 < x → 0 < y → Real.log (x * y) = Real.log x + Real.log y) ∧ (2 : ℝ) ≠ 0 ∧
      ((aicp Real.log (embed (scale 2 (fun i => (i : ℝ)))) 4 (fun _ => .nan) 0).pminidx =
          (aicp Real.log (embed (fun i => (i : ℝ))) 4 (fun _ => .nan) 0).pminidx ∧
        ∀ j, j < 4 - 1 →
          (((aicp Real.log (embed (scale 2 (fun i => (i : ℝ)))) 4 (fun _ => .nan) 0).aic j =
                INFINITY ↔
              (aicp Real.log (embed (fun i => (i : ℝ))) 4 (fun _ => .nan) 0).aic j = INFINITY) ∧
            ∀ x, (aicp Real.log (embed (fun i => (i : ℝ))) 4 (fun _ => .nan) 0).aic j = .num x →
              (aicp Real.log (embed (scale 2 (fun i => (i : ℝ)))) 4 (fun _ => .nan) 0).aic j =
                .num (x + ((4 - 1 : Nat) : ℝ) * Real.log (2 ^ 2)))) :=
  ⟨fun _ _ hx hy => Real.log_mul hx.ne.symm hy.ne.symm, two_ne_zero,
    aicp_gain_invariance Real.log (fun _ _ hx hy => Real.log_mul hx.ne.symm hy.ne.symm)
      (fun i => (i : ℝ)) 4 2 two_ne_zero (fun _ => .nan) (fun _ => .nan) 0 0⟩

end Exact

end Aurem
